import Mathlib

/-!
Verification of the immutable-state-variable validator
(`libsolidity/analysis/ImmutableValidator.cpp`).

The validator is a depth-first AST walker over a name-resolved,
type-annotated program.  We embed the program model shallowly:
declarations (callables, variables, contracts) live in id-indexed
association lists, mirroring the C++ pointer graph, and the walker is a
fuel-indexed mutual recursion (the C++ recursion is bounded by the
visited-callable set; fuel only truncates runs, it never changes the
order of effects).  The validator state mirrors the C++ member fields;
the fields `walks`, `edgeWalks` and `checkAllLocs` are ghost
instrumentation recording every entry into `analyseCallable` (tagged
with whether it came through a call edge) and every invocation of
`checkAllVariablesInitialized`, without influencing behaviour.
-/

set_option linter.unusedVariables false

namespace ImmutableValidator

/-- The seven diagnostic kinds emitted by the validator, one per
distinct message string in the source. -/
inductive DiagKind where
  | readDuringConstruction
  | invalidInitLocation
  | wrongContractInit
  | initInLoop
  | initInBranch
  | doubleInit
  | incompleteConstruction
  deriving DecidableEq, Repr

/-- A diagnostic: kind, primary source location, and the optional
secondary location (the "Not initialized:" annotation). -/
structure Diag where
  kind : DiagKind
  loc : Nat
  secondary : Option Nat
  deriving DecidableEq, Repr

/-- `Identifier::annotation().referencedDeclaration`, classified the way
the two `dynamic_cast`s in `visit(Identifier)` classify it. -/
inductive RefDecl where
  | callable (cid : Nat)
  | var (vid : Nat)
  | otherDecl
  deriving DecidableEq, Repr

/-- The `FunctionType::Kind` values distinguished by `visit(MemberAccess)`. -/
inductive FTKind where
  | internalKind
  | declarationKind
  | otherKind
  deriving DecidableEq, Repr

/-- The function-type annotation of a member access: its kind and, when
`hasDeclaration()` holds and the declaration is a callable, that
callable's id. -/
structure FuncTypeAnnot where
  kind : FTKind
  decl : Option Nat
  deriving DecidableEq, Repr

/-- Expressions, restricted to the node shapes the validator
distinguishes; every other expression behaves as "visit all children"
(`otherExpr`). -/
inductive Expr where
  | ident (loc : Nat) (ref : RefDecl) (lValueRequested : Bool) (ordinaryLAssignment : Bool)
  | member (expr : Expr) (funcType : Option FuncTypeAnnot)
  | otherExpr (children : List Expr)
  deriving Repr

/-- Statements, restricted to the node shapes the validator
distinguishes; `block` and `exprStmt` cover the default
visit-all-children behaviour. -/
inductive Stmt where
  | ifStmt (cond : Expr) (trueStmt : Stmt) (falseStmt : Option Stmt)
  | whileStmt (cond : Expr) (body : Stmt)
  | ret (loc : Nat) (expr : Option Expr)
  | block (stmts : List Stmt)
  | exprStmt (e : Expr)
  deriving Repr

/-- A function definition: the attributes read by the validator. -/
structure FuncDef where
  name : String
  contractId : Nat
  isConstructor : Bool
  virtualSem : Bool
  paramTypes : List Nat
  returnTypes : List Nat
  modifiers : List Expr
  implemented : Bool
  body : Stmt
  deriving Repr

/-- A modifier definition: the attributes read by the validator. -/
structure ModDef where
  name : String
  contractId : Nat
  virtualSem : Bool
  body : Stmt
  deriving Repr

/-- `CallableDeclaration`, the sum of functions and modifiers. -/
inductive Callable where
  | func (f : FuncDef)
  | modifierDef (m : ModDef)
  deriving Repr

/-- A variable declaration: the attributes read by the validator. -/
structure VarDecl where
  contractId : Nat
  isStateVariable : Bool
  immutable : Bool
  value : Option Expr
  loc : Nat
  deriving Repr

/-- A contract: linearization, inheritance-specifier argument lists,
directly defined functions and modifiers (by callable id), and the
state variables visible to it including inherited ones (by variable
id). -/
structure Contract where
  loc : Nat
  linearizedBaseContracts : List Nat
  baseContractArgs : List (Option (List Expr))
  definedFunctions : List Nat
  functionModifiers : List Nat
  stateVariables : List Nat
  deriving Repr

/-- A whole input program: the id-indexed declaration environments and
the contract under analysis (`m_currentContract`). -/
structure Program where
  callables : List (Nat × Callable)
  vars : List (Nat × VarDecl)
  contracts : List (Nat × Contract)
  currentContract : Contract
  deriving Repr

/-- The validator's mutable state (`m_inConstructionContext`,
`m_inBranch`, `m_inLoop`, `m_currentConstructor` — stored as the
constructor's callable id paired with its contract id —,
`m_visitedCallables`, `m_initializedStateVariables`, the emitted
diagnostics in order, and the `solAssert` failure flag), plus the three
ghost trace fields. -/
structure VState where
  inConstructionContext : Bool := false
  inBranch : Bool := false
  inLoop : Bool := false
  currentConstructor : Option (Nat × Nat) := none
  visitedCallables : List Nat := []
  initializedStateVariables : List Nat := []
  errors : List Diag := []
  assertFailed : Bool := false
  walks : List Nat := []
  edgeWalks : List Nat := []
  checkAllLocs : List Nat := []
  deriving DecidableEq, Repr

/-- Set insertion for the id sets (`std::set::insert` keeps an existing
element). -/
def insertId (x : Nat) (l : List Nat) : List Nat :=
  if x ∈ l then l else x :: l

/-- `ImmutableValidator::checkAllVariablesInitialized`: one
`incompleteConstruction` diagnostic at `loc`, with secondary annotation
at the variable's declaration, per immutable state variable visible to
the current contract that is not recorded as initialized. -/
def checkAllVariablesInitialized (p : Program) (loc : Nat) (s : VState) : VState :=
  let ds := p.currentContract.stateVariables.filterMap fun vid =>
    match p.vars.lookup vid with
    | some vd =>
        if vd.immutable && !(s.initializedStateVariables.contains vid) then
          some ⟨DiagKind.incompleteConstruction, loc, some vd.loc⟩
        else none
    | none => none
  { s with errors := s.errors ++ ds, checkAllLocs := s.checkAllLocs ++ [loc] }

/-- Modelled from the spec: `FunctionType::hasEqualParameterTypes`
(libsolidity type system, not under src) — "parameter types ... exactly
equal to the original". -/
def hasEqualParameterTypes (a b : FuncDef) : Bool :=
  a.paramTypes == b.paramTypes

/-- Modelled from the spec: `FunctionType::hasEqualReturnTypes`
(libsolidity type system, not under src) — "return types ... exactly
equal to the original". -/
def hasEqualReturnTypes (a b : FuncDef) : Bool :=
  a.returnTypes == b.returnTypes

/-- `CallableDeclaration::virtualSemantics` (a field of the consumed
program model). -/
def virtualSemantics : Callable → Bool
  | Callable.func f => f.virtualSem
  | Callable.modifierDef m => m.virtualSem

/-- Inner loop of `findFinalOverride` for functions: the first function
in the given id list whose name and signature match the origin. -/
def findFuncIn (p : Program) (orig : FuncDef) : List Nat → Option Nat
  | [] => none
  | fid :: rest =>
    match p.callables.lookup fid with
    | some (Callable.func g) =>
        if g.name == orig.name
            && (hasEqualReturnTypes g orig && hasEqualParameterTypes g orig)
        then some fid
        else findFuncIn p orig rest
    | _ => findFuncIn p orig rest

/-- Outer loop of `findFinalOverride` for functions: scan the
linearized contracts in order, returning the first match. -/
def findFuncOverride (p : Program) (orig : FuncDef) : List Nat → Option Nat
  | [] => none
  | kid :: rest =>
    match p.contracts.lookup kid with
    | some k =>
        match findFuncIn p orig k.definedFunctions with
        | some fid => some fid
        | none => findFuncOverride p orig rest
    | none => findFuncOverride p orig rest

/-- Inner loop of `findFinalOverride` for modifiers: the first modifier
in the given id list with a matching name. -/
def findModIn (p : Program) (orig : ModDef) : List Nat → Option Nat
  | [] => none
  | mid :: rest =>
    match p.callables.lookup mid with
    | some (Callable.modifierDef m) =>
        if orig.name == m.name then some mid else findModIn p orig rest
    | _ => findModIn p orig rest

/-- Outer loop of `findFinalOverride` for modifiers. -/
def findModOverride (p : Program) (orig : ModDef) : List Nat → Option Nat
  | [] => none
  | kid :: rest =>
    match p.contracts.lookup kid with
    | some k =>
        match findModIn p orig k.functionModifiers with
        | some mid => some mid
        | none => findModOverride p orig rest
    | none => findModOverride p orig rest

/-- `ImmutableValidator::findFinalOverride`: identity on non-virtual
callables; for virtual ones, scan `linearizedBaseContracts` in order
(most-derived first) for the first matching function (name and
signature) or modifier (name only); fall back to the original. -/
def findFinalOverride (p : Program) (cid : Nat) : Nat :=
  match p.callables.lookup cid with
  | none => cid
  | some c =>
    if !virtualSemantics c then cid
    else
      match c with
      | Callable.func f =>
          (findFuncOverride p f p.currentContract.linearizedBaseContracts).getD cid
      | Callable.modifierDef m =>
          (findModOverride p m p.currentContract.linearizedBaseContracts).getD cid

/-- The else-if chain of location checks at a simple-assignment site
(constructor present / declaring contract / loop flag / branch flag),
in source order. -/
def assignLocErrors (s : VState) (vd : VarDecl) (loc : Nat) : List Diag :=
  match s.currentConstructor with
  | none => [⟨DiagKind.invalidInitLocation, loc, none⟩]
  | some cc =>
    if cc.2 != vd.contractId then [⟨DiagKind.wrongContractInit, loc, none⟩]
    else if s.inLoop then [⟨DiagKind.initInLoop, loc, none⟩]
    else if s.inBranch then [⟨DiagKind.initInBranch, loc, none⟩]
    else []

mutual

/-- The expression walker: `visit(Identifier)`, `visit(MemberAccess)`,
and the default visit-all-children rule.  Fuel only truncates deep
call-edge recursion. -/
def visitExpr (p : Program) : Nat → VState → Expr → VState
  | 0, s, _ => s
  | fuel+1, s, Expr.ident loc ref lval ord =>
    match ref with
    | RefDecl.callable cid =>
        let fd := findFinalOverride p cid
        if fd ∈ s.visitedCallables then s
        else
          let s1 := { s with visitedCallables := fd :: s.visitedCallables }
          match p.callables.lookup fd with
          | some c => analyseCallable p fuel s1 c fd true
          | none => s1
    | RefDecl.var vid =>
        match p.vars.lookup vid with
        | none => s
        | some vd =>
          if !(vd.isStateVariable && vd.immutable) then s
          else if lval && ord then
            { s with
              errors := s.errors ++ assignLocErrors s vd loc ++
                (if vid ∈ s.initializedStateVariables then
                  [⟨DiagKind.doubleInit, loc, none⟩]
                 else []),
              initializedStateVariables :=
                if vid ∈ s.initializedStateVariables then s.initializedStateVariables
                else vid :: s.initializedStateVariables }
          else if s.inConstructionContext then
            { s with errors := s.errors ++ [⟨DiagKind.readDuringConstruction, loc, none⟩] }
          else s
    | RefDecl.otherDecl => s
  | fuel+1, s, Expr.member e1 ft =>
    let s1 := visitExpr p fuel s e1
    match ft with
    | some f =>
      if f.kind == FTKind.internalKind || f.kind == FTKind.declarationKind then
        match f.decl with
        | some did =>
          if did ∈ s1.visitedCallables then s1
          else
            let s2 := { s1 with visitedCallables := did :: s1.visitedCallables }
            match p.callables.lookup did with
            | some c => analyseCallable p fuel s2 c did true
            | none => s2
        | none => s1
      else s1
    | none => s1
  | fuel+1, s, Expr.otherExpr es => visitExprs p fuel s es

/-- `ASTNode::listAccept` for expressions. -/
def visitExprs (p : Program) : Nat → VState → List Expr → VState
  | 0, s, _ => s
  | _+1, s, [] => s
  | fuel+1, s, e :: es => visitExprs p fuel (visitExpr p fuel s e) es

/-- The statement walker: `visit(IfStatement)`, `visit(WhileStatement)`,
`visit(Return)`, and the default rule for blocks and expression
statements. -/
def visitStmt (p : Program) : Nat → VState → Stmt → VState
  | 0, s, _ => s
  | fuel+1, s, Stmt.ifStmt c t fs =>
    let prev := s.inBranch
    let s1 := visitExpr p fuel s c
    let s2 := visitStmt p fuel { s1 with inBranch := true } t
    let s3 := match fs with
              | some f => visitStmt p fuel s2 f
              | none => s2
    { s3 with inBranch := prev }
  | fuel+1, s, Stmt.whileStmt c b =>
    let prev := s.inLoop
    let s1 := visitExpr p fuel { s with inLoop := true } c
    let s2 := visitStmt p fuel s1 b
    { s2 with inLoop := prev }
  | fuel+1, s, Stmt.ret loc oe =>
    match s.currentConstructor with
    | none =>
      match oe with
      | some e => visitExpr p fuel s e
      | none => s
    | some _ =>
      let s1 := match oe with
                | some e => visitExpr p fuel s e
                | none => s
      checkAllVariablesInitialized p loc s1
  | fuel+1, s, Stmt.block sts => visitStmts p fuel s sts
  | fuel+1, s, Stmt.exprStmt e => visitExpr p fuel s e

/-- `ASTNode::listAccept` for statements (block contents). -/
def visitStmts (p : Program) : Nat → VState → List Stmt → VState
  | 0, s, _ => s
  | _+1, s, [] => s
  | fuel+1, s, st :: sts => visitStmts p fuel (visitStmt p fuel s st) sts

/-- The body part of `analyseCallable`: modifier-invocation list and
(if implemented) body for functions, body for modifiers. -/
def callableInner (p : Program) : Nat → VState → Callable → VState
  | 0, s, _ => s
  | fuel+1, s, Callable.func f =>
    let s1 := visitExprs p fuel s f.modifiers
    if f.implemented then visitStmt p fuel s1 f.body else s1
  | fuel+1, s, Callable.modifierDef m => visitStmt p fuel s m.body

/-- `ImmutableValidator::analyseCallable`: save `m_currentConstructor`,
set it to the entered declaration when that is a constructor and to
`none` otherwise, walk the callable, restore on exit.  The construction
/branch/loop flags are untouched.  `viaEdge` is ghost: `true` at the
two call-edge sites, `false` at the driver's sites. -/
def analyseCallable (p : Program) : Nat → VState → Callable → Nat → Bool → VState
  | 0, s, _, _, _ => s
  | fuel+1, s, c, cid, viaEdge =>
    let s0 := { s with
      walks := s.walks ++ [cid],
      edgeWalks := s.edgeWalks ++ (if viaEdge then [cid] else []),
      currentConstructor :=
        match c with
        | Callable.func f => if f.isConstructor then some (cid, f.contractId) else none
        | Callable.modifierDef _ => none }
    let s1 := callableInner p fuel s0 c
    { s1 with currentConstructor := s.currentConstructor }

end

/-- The driver's first loop: walk each state-variable initializer, then
record the variable as initialized; `solAssert` demands the insertion
to be fresh — on violation the run aborts with `assertFailed`. -/
def initStateVars (p : Program) (fuel : Nat) : VState → List Nat → VState
  | s, [] => s
  | s, vid :: rest =>
    match p.vars.lookup vid with
    | none => initStateVars p fuel s rest
    | some vd =>
      match vd.value with
      | none => initStateVars p fuel s rest
      | some e =>
        let s1 := visitExpr p fuel s e
        if vid ∈ s1.initializedStateVariables then { s1 with assertFailed := true }
        else initStateVars p fuel
          { s1 with initializedStateVariables := vid :: s1.initializedStateVariables } rest

/-- Modelled from the spec: `ContractDefinition::constructor` (AST
accessor, not under src) — the contract's "optional constructor", the
function among its defined functions marked `isConstructor`. -/
def constructorOf (p : Program) (k : Contract) : Option (Nat × FuncDef) :=
  k.definedFunctions.findSome? fun fid =>
    match p.callables.lookup fid with
    | some (Callable.func f) => if f.isConstructor then some (fid, f) else none
    | _ => none

/-- The driver's walk of the inheritance-specifier argument lists. -/
def visitBaseArgs (p : Program) (fuel : Nat) : VState → List (Option (List Expr)) → VState
  | s, [] => s
  | s, ob :: rest =>
    match ob with
    | some args => visitBaseArgs p fuel (visitExprs p fuel s args) rest
    | none => visitBaseArgs p fuel s rest

/-- The driver's sweep over defined functions or modifiers: walk each
one not yet in the visited set (without inserting it). -/
def sweepCallables (p : Program) (fuel : Nat) : VState → List Nat → VState
  | s, [] => s
  | s, fid :: rest =>
    if fid ∈ s.visitedCallables then sweepCallables p fuel s rest
    else
      match p.callables.lookup fid with
      | some c => sweepCallables p fuel (analyseCallable p fuel s c fid false) rest
      | none => sweepCallables p fuel s rest

/-- One iteration of the driver's linearization loop: construction
context on; constructor walked and then marked visited; base-argument
lists walked; construction context off; functions and modifiers swept. -/
def contractPhase (p : Program) (fuel : Nat) (s : VState) (k : Contract) : VState :=
  let s1 := { s with inConstructionContext := true }
  let s2 := match constructorOf p k with
    | some cf =>
      let t := analyseCallable p fuel s1 (Callable.func cf.2) cf.1 false
      { t with visitedCallables := insertId cf.1 t.visitedCallables }
    | none => s1
  let s3 := visitBaseArgs p fuel s2 k.baseContractArgs
  let s4 := { s3 with inConstructionContext := false }
  let s5 := sweepCallables p fuel s4 k.definedFunctions
  sweepCallables p fuel s5 k.functionModifiers

/-- The driver's linearization loop over contract ids. -/
def contractLoop (p : Program) (fuel : Nat) : VState → List Nat → VState
  | s, [] => s
  | s, kid :: rest =>
    match p.contracts.lookup kid with
    | some k => contractLoop p fuel (contractPhase p fuel s k) rest
    | none => contractLoop p fuel s rest

/-- `ImmutableValidator::analyze`: initializer loop (aborting the run if
the recording assertion fails), reversed linearization loop, final
completeness check at the contract's own location. -/
def analyze (p : Program) (fuel : Nat) : VState :=
  let s0 : VState := { inConstructionContext := true }
  let s1 := initStateVars p fuel s0 p.currentContract.stateVariables
  if s1.assertFailed then s1
  else
    let s2 := contractLoop p fuel s1 p.currentContract.linearizedBaseContracts.reverse
    checkAllVariablesInitialized p p.currentContract.loc s2

/-! ### Concrete fixtures for witnesses and counterexamples -/

/-- An immutable state variable of contract 10, no initializer. -/
def xVarW : VarDecl :=
  { contractId := 10, isStateVariable := true, immutable := true, value := none, loc := 1 }

/-- A minimal contract seeing the single state variable 1. -/
def contractW : Contract :=
  { loc := 0, linearizedBaseContracts := [], baseContractArgs := [],
    definedFunctions := [], functionModifiers := [], stateVariables := [1] }

/-- A minimal program: just the one immutable variable. -/
def pW : Program :=
  { callables := [], vars := [(1, xVarW)], contracts := [], currentContract := contractW }

/-! ### Unfolding lemmas for the identifier visit -/

/-- At a simple-assignment site targeting an immutable state variable,
the visit appends the location-check diagnostics and the possible
double-initialization diagnostic, and records the variable. -/
theorem visitExpr_assign_eq (p : Program) (fuel : Nat) (s : VState) (loc vid : Nat)
    (vd : VarDecl) (hv : p.vars.lookup vid = some vd)
    (hsv : vd.isStateVariable = true) (him : vd.immutable = true) :
    visitExpr p (fuel + 1) s (Expr.ident loc (RefDecl.var vid) true true) =
      { s with
        errors := s.errors ++ assignLocErrors s vd loc ++
          (if vid ∈ s.initializedStateVariables then
            [⟨DiagKind.doubleInit, loc, none⟩] else []),
        initializedStateVariables :=
          if vid ∈ s.initializedStateVariables then s.initializedStateVariables
          else vid :: s.initializedStateVariables } := by
  simp [visitExpr, hv, hsv, him]

/-- At a non-simple-assignment reference (read or compound target) to an
immutable state variable, the visit emits the read diagnostic exactly
when the construction-context flag is set. -/
theorem visitExpr_readsite_eq (p : Program) (fuel : Nat) (s : VState) (loc vid : Nat)
    (lval ord : Bool) (vd : VarDecl) (hv : p.vars.lookup vid = some vd)
    (hsv : vd.isStateVariable = true) (him : vd.immutable = true)
    (hlo : (lval && ord) = false) :
    visitExpr p (fuel + 1) s (Expr.ident loc (RefDecl.var vid) lval ord) =
      if s.inConstructionContext then
        { s with errors := s.errors ++ [⟨DiagKind.readDuringConstruction, loc, none⟩] }
      else s := by
  simp [visitExpr, hv, hsv, him, hlo]

/-- The location-check chain emits at most one diagnostic. -/
theorem assignLocErrors_length_le_one (s : VState) (vd : VarDecl) (loc : Nat) :
    (assignLocErrors s vd loc).length ≤ 1 := by
  unfold assignLocErrors
  cases s.currentConstructor with
  | none => simp
  | some cc =>
    by_cases h1 : cc.2 != vd.contractId <;>
      by_cases h2 : s.inLoop <;> by_cases h3 : s.inBranch <;> simp [h1, h2, h3]

/-- The location-check chain never emits the double-initialization kind. -/
theorem assignLocErrors_no_doubleInit (s : VState) (vd : VarDecl) (loc : Nat)
    (d : Diag) (hd : d ∈ assignLocErrors s vd loc) : d.kind ≠ DiagKind.doubleInit := by
  unfold assignLocErrors at hd
  cases h : s.currentConstructor with
  | none => rw [h] at hd; simp at hd; simp [hd]
  | some cc =>
    rw [h] at hd
    by_cases h1 : cc.2 != vd.contractId <;>
      by_cases h2 : s.inLoop <;> by_cases h3 : s.inBranch <;>
        simp [h1, h2, h3] at hd <;> simp [hd]

/-- Case-by-case value of the location-check chain, witnessing the test
order of the source. -/
theorem assignLocErrors_cases (s : VState) (vd : VarDecl) (loc : Nat) :
    (s.currentConstructor = none →
      assignLocErrors s vd loc = [⟨DiagKind.invalidInitLocation, loc, none⟩]) ∧
    (∀ cc, s.currentConstructor = some cc → cc.2 ≠ vd.contractId →
      assignLocErrors s vd loc = [⟨DiagKind.wrongContractInit, loc, none⟩]) ∧
    (∀ cc, s.currentConstructor = some cc → cc.2 = vd.contractId → s.inLoop = true →
      assignLocErrors s vd loc = [⟨DiagKind.initInLoop, loc, none⟩]) ∧
    (∀ cc, s.currentConstructor = some cc → cc.2 = vd.contractId → s.inLoop = false →
      s.inBranch = true →
      assignLocErrors s vd loc = [⟨DiagKind.initInBranch, loc, none⟩]) ∧
    (∀ cc, s.currentConstructor = some cc → cc.2 = vd.contractId → s.inLoop = false →
      s.inBranch = false → assignLocErrors s vd loc = []) := by
  refine ⟨?_, ?_, ?_, ?_, ?_⟩ <;> intros <;> unfold assignLocErrors <;>
    simp_all

/-! ### Claim C6 -/

/-- C6: a reference to an immutable state variable that is not a
simple-assignment target emits `readDuringConstruction` if and only if
the construction-context flag is set at the reference site; outside
construction context the visit leaves the state unchanged. -/
theorem C6_read_iff_construction_context (p : Program) (fuel : Nat) (s : VState)
    (loc vid : Nat) (lval ord : Bool) (vd : VarDecl)
    (hv : p.vars.lookup vid = some vd) (hsv : vd.isStateVariable = true)
    (him : vd.immutable = true) (hlo : (lval && ord) = false) :
    (visitExpr p (fuel + 1) s (Expr.ident loc (RefDecl.var vid) lval ord) =
      if s.inConstructionContext then
        { s with errors := s.errors ++ [⟨DiagKind.readDuringConstruction, loc, none⟩] }
      else s) ∧
    ((⟨DiagKind.readDuringConstruction, loc, none⟩ : Diag) ∈
        (visitExpr p (fuel + 1) s (Expr.ident loc (RefDecl.var vid) lval ord)).errors
      ↔ (s.inConstructionContext = true ∨
          (⟨DiagKind.readDuringConstruction, loc, none⟩ : Diag) ∈ s.errors)) := by
  have h := visitExpr_readsite_eq p fuel s loc vid lval ord vd hv hsv him hlo
  refine ⟨h, ?_⟩
  rw [h]
  by_cases hc : s.inConstructionContext <;> simp [hc]

/-- Witness for C6 at a concrete program and state. -/
theorem C6_witness :
    (visitExpr pW 1 { inConstructionContext := true }
        (Expr.ident 5 (RefDecl.var 1) false false)).errors =
      [⟨DiagKind.readDuringConstruction, 5, none⟩] := by
  have h := C6_read_iff_construction_context pW 0 { inConstructionContext := true }
    5 1 false false xVarW rfl rfl rfl rfl
  rw [h.1]
  rfl

/-! ### Claim C7 -/

/-- C7: at a simple-assignment site targeting an immutable state
variable, the variable is recorded in the initialized set regardless of
the outcome of the location checks, and `doubleInit` is among the newly
emitted diagnostics if and only if the variable was already recorded. -/
theorem C7_record_and_double_init (p : Program) (fuel : Nat) (s : VState)
    (loc vid : Nat) (vd : VarDecl) (hv : p.vars.lookup vid = some vd)
    (hsv : vd.isStateVariable = true) (him : vd.immutable = true) :
    ((visitExpr p (fuel + 1) s
        (Expr.ident loc (RefDecl.var vid) true true)).initializedStateVariables
      = insertId vid s.initializedStateVariables) ∧
    (∃ ds, (visitExpr p (fuel + 1) s
        (Expr.ident loc (RefDecl.var vid) true true)).errors = s.errors ++ ds ∧
      (((⟨DiagKind.doubleInit, loc, none⟩ : Diag) ∈ ds) ↔
        vid ∈ s.initializedStateVariables)) := by
  rw [visitExpr_assign_eq p fuel s loc vid vd hv hsv him]
  refine ⟨by simp [insertId], ?_⟩
  refine ⟨assignLocErrors s vd loc ++
    (if vid ∈ s.initializedStateVariables then
      [⟨DiagKind.doubleInit, loc, none⟩] else []), by simp, ?_⟩
  constructor
  · intro hmem
    rcases List.mem_append.mp hmem with hmem | hmem
    · exact absurd rfl (assignLocErrors_no_doubleInit s vd loc _ hmem)
    · by_cases hi : vid ∈ s.initializedStateVariables
      · exact hi
      · simp [hi] at hmem
  · intro hi
    simp [hi]

/-- Witness for C7: a second assignment to an already-recorded variable. -/
theorem C7_witness :
    ((visitExpr pW 1 { initializedStateVariables := [1] }
        (Expr.ident 6 (RefDecl.var 1) true true)).initializedStateVariables = [1]) ∧
    ((⟨DiagKind.doubleInit, 6, none⟩ : Diag) ∈
      (visitExpr pW 1 { initializedStateVariables := [1] }
        (Expr.ident 6 (RefDecl.var 1) true true)).errors) := by
  have h := C7_record_and_double_init pW 0 { initializedStateVariables := [1] }
    6 1 xVarW rfl rfl rfl
  refine ⟨by rw [h.1]; rfl, ?_⟩
  rcases h.2 with ⟨ds, heq, hiff⟩
  rw [heq]
  exact List.mem_append.mpr (Or.inr (hiff.mpr (by decide)))

/-! ### Claim C8 -/

/-- C8: at a simple-assignment site the location checks emit at most
one of the four location diagnostics, tested in source order; in
particular when the site is inside both a loop and a branch only
`initInLoop` is reported. -/
theorem C8_at_most_one_location_error (p : Program) (fuel : Nat) (s : VState)
    (loc vid : Nat) (vd : VarDecl) (hv : p.vars.lookup vid = some vd)
    (hsv : vd.isStateVariable = true) (him : vd.immutable = true) :
    (∃ ds, (visitExpr p (fuel + 1) s
        (Expr.ident loc (RefDecl.var vid) true true)).errors =
          s.errors ++ assignLocErrors s vd loc ++ ds) ∧
    (assignLocErrors s vd loc).length ≤ 1 ∧
    (s.currentConstructor = none →
      assignLocErrors s vd loc = [⟨DiagKind.invalidInitLocation, loc, none⟩]) ∧
    (∀ cc, s.currentConstructor = some cc → cc.2 ≠ vd.contractId →
      assignLocErrors s vd loc = [⟨DiagKind.wrongContractInit, loc, none⟩]) ∧
    (∀ cc, s.currentConstructor = some cc → cc.2 = vd.contractId → s.inLoop = true →
      assignLocErrors s vd loc = [⟨DiagKind.initInLoop, loc, none⟩]) ∧
    (∀ cc, s.currentConstructor = some cc → cc.2 = vd.contractId → s.inLoop = false →
      s.inBranch = true →
      assignLocErrors s vd loc = [⟨DiagKind.initInBranch, loc, none⟩]) := by
  have hc := assignLocErrors_cases s vd loc
  refine ⟨?_, assignLocErrors_length_le_one s vd loc, hc.1, hc.2.1, hc.2.2.1, hc.2.2.2.1⟩
  rw [visitExpr_assign_eq p fuel s loc vid vd hv hsv him]
  exact ⟨_, rfl⟩

/-- Witness for C8: assignment nested in both a loop and a branch, with
the matching constructor active, reports only `initInLoop`. -/
theorem C8_witness :
    assignLocErrors
      { inLoop := true, inBranch := true, currentConstructor := some (9, 10) } xVarW 7 =
      [⟨DiagKind.initInLoop, 7, none⟩] := by
  have h := C8_at_most_one_location_error pW 0
    { inLoop := true, inBranch := true, currentConstructor := some (9, 10) }
    7 1 xVarW rfl rfl rfl
  exact h.2.2.2.2.1 (9, 10) rfl rfl rfl

/-! ### The return visit and currentConstructor discipline -/

/-- `visit(Return)` with no enclosing constructor returns `true`: the
default traversal continues into the return's expression and no
completeness check runs. -/
theorem visitStmt_ret_none_eq (p : Program) (fuel : Nat) (s : VState) (rloc : Nat)
    (oe : Option Expr) (h : s.currentConstructor = none) :
    visitStmt p (fuel + 1) s (Stmt.ret rloc oe) =
      match oe with
      | some e => visitExpr p fuel s e
      | none => s := by
  cases oe <;> simp [visitStmt, h]

/-- `visit(Return)` with an enclosing constructor walks the expression
and then runs the completeness check at the return's location. -/
theorem visitStmt_ret_some_eq (p : Program) (fuel : Nat) (s : VState) (rloc : Nat)
    (oe : Option Expr) (cc : Nat × Nat) (h : s.currentConstructor = some cc) :
    visitStmt p (fuel + 1) s (Stmt.ret rloc oe) =
      checkAllVariablesInitialized p rloc
        (match oe with
         | some e => visitExpr p fuel s e
         | none => s) := by
  cases oe <;> simp [visitStmt, h]

/-- `analyseCallable` always restores `m_currentConstructor` on exit. -/
theorem analyseCallable_cc (p : Program) (fuel : Nat) (s : VState) (c : Callable)
    (cid : Nat) (ve : Bool) :
    (analyseCallable p fuel s c cid ve).currentConstructor = s.currentConstructor := by
  cases fuel with
  | zero => rfl
  | succ fuel => simp [analyseCallable]

/-- The completeness check only appends diagnostics and the ghost
location trace. -/
theorem checkAll_fields (p : Program) (loc : Nat) (s : VState) :
    (checkAllVariablesInitialized p loc s).currentConstructor = s.currentConstructor ∧
    (checkAllVariablesInitialized p loc s).inConstructionContext = s.inConstructionContext ∧
    (checkAllVariablesInitialized p loc s).inBranch = s.inBranch ∧
    (checkAllVariablesInitialized p loc s).inLoop = s.inLoop ∧
    (checkAllVariablesInitialized p loc s).visitedCallables = s.visitedCallables ∧
    (checkAllVariablesInitialized p loc s).initializedStateVariables =
      s.initializedStateVariables ∧
    (checkAllVariablesInitialized p loc s).assertFailed = s.assertFailed := by
  refine ⟨rfl, rfl, rfl, rfl, rfl, rfl, rfl⟩

/-- The statement and expression walkers never change
`m_currentConstructor` (every change happens inside `analyseCallable`,
which restores it). -/
theorem walk_preserves_cc (p : Program) : ∀ fuel : Nat,
    (∀ s e, (visitExpr p fuel s e).currentConstructor = s.currentConstructor) ∧
    (∀ s es, (visitExprs p fuel s es).currentConstructor = s.currentConstructor) ∧
    (∀ s st, (visitStmt p fuel s st).currentConstructor = s.currentConstructor) ∧
    (∀ s sts, (visitStmts p fuel s sts).currentConstructor = s.currentConstructor) := by
  intro fuel
  induction fuel with
  | zero =>
    refine ⟨?_, ?_, ?_, ?_⟩ <;> intros <;> rfl
  | succ fuel ih =>
    obtain ⟨ihe, ihes, ihs, ihss⟩ := ih
    refine ⟨?_, ?_, ?_, ?_⟩
    · intro s e
      cases e with
      | ident loc ref lval ord =>
        cases ref with
        | callable cid =>
          simp only [visitExpr]
          by_cases hm : findFinalOverride p cid ∈ s.visitedCallables
          · simp [hm]
          · cases hl : p.callables.lookup (findFinalOverride p cid) <;>
              simp [hm, hl, analyseCallable_cc]
        | var vid =>
          cases hl : p.vars.lookup vid with
          | none => simp [visitExpr, hl]
          | some vd =>
            simp only [visitExpr, hl]
            by_cases h1 : !(vd.isStateVariable && vd.immutable) <;>
              by_cases h2 : (lval && ord) = true <;>
                by_cases h3 : s.inConstructionContext <;> simp [h1, h2, h3]
        | otherDecl => simp [visitExpr]
      | member e1 ft =>
        simp only [visitExpr]
        cases ft with
        | none => exact ihe s e1
        | some f =>
          by_cases hk : (f.kind == FTKind.internalKind || f.kind == FTKind.declarationKind) = true
          · cases hd : f.decl with
            | none => simp [hk, hd, ihe s e1]
            | some did =>
              by_cases hm : did ∈ (visitExpr p fuel s e1).visitedCallables
              · simp [hk, hd, hm, ihe s e1]
              · cases hl : p.callables.lookup did <;>
                  simp [hk, hd, hm, hl, analyseCallable_cc, ihe s e1]
          · simp [hk, ihe s e1]
      | otherExpr es => simp [visitExpr, ihes s es]
    · intro s es
      cases es with
      | nil => rfl
      | cons e es => simp [visitExprs, ihes _ es, ihe s e]
    · intro s st
      cases st with
      | ifStmt c t fs =>
        cases fs <;> simp [visitStmt, ihs, ihe]
      | whileStmt c b => simp [visitStmt, ihs, ihe]
      | ret rloc oe =>
        cases hc : s.currentConstructor with
        | none =>
          rw [visitStmt_ret_none_eq p fuel s rloc oe hc]
          cases oe <;> simp [ihe, hc]
        | some cc =>
          rw [visitStmt_ret_some_eq p fuel s rloc oe cc hc]
          rw [(checkAll_fields p rloc _).1]
          cases oe <;> simp [ihe, hc]
      | block sts => simp [visitStmt, ihss s sts]
      | exprStmt e => simp [visitStmt, ihe s e]
    · intro s sts
      cases sts with
      | nil => rfl
      | cons st sts => simp [visitStmts, ihss _ sts, ihs s st]

/-! ### Claim C2 (corrected) -/

/-- C2 (amended): when `current_constructor` is unset, visiting a return
statement performs no completeness check but continues the default
traversal: it equals walking the return's expression (when present). -/
theorem C2_ret_no_ctor_descends (p : Program) (fuel : Nat) (s : VState) (rloc : Nat)
    (e : Expr) (h : s.currentConstructor = none) :
    (visitStmt p (fuel + 1) s (Stmt.ret rloc (some e)) = visitExpr p fuel s e) ∧
    (visitStmt p (fuel + 1) s (Stmt.ret rloc none) = s) ∧
    ((visitStmt p (fuel + 1) s (Stmt.ret rloc (some e))).checkAllLocs =
      (visitExpr p fuel s e).checkAllLocs) := by
  have h1 := visitStmt_ret_none_eq p fuel s rloc (some e) h
  have h2 := visitStmt_ret_none_eq p fuel s rloc none h
  exact ⟨h1, h2, by rw [h1]⟩

/-- Witness for the amended C2 at a concrete return statement. -/
theorem C2_witness :
    visitStmt pW 2 { inConstructionContext := true }
        (Stmt.ret 9 (some (Expr.ident 5 (RefDecl.var 1) false false))) =
      visitExpr pW 1 { inConstructionContext := true }
        (Expr.ident 5 (RefDecl.var 1) false false) :=
  (C2_ret_no_ctor_descends pW 1 { inConstructionContext := true } 9
    (Expr.ident 5 (RefDecl.var 1) false false) rfl).1

/-- Counterexample to C2 as stated: with `current_constructor` unset the
walker DOES descend into the return's expression — the immutable read
inside it is reported, which could not happen without descending. -/
theorem C2_counterexample :
    (visitStmt pW 2 { inConstructionContext := true }
        (Stmt.ret 9 (some (Expr.ident 5 (RefDecl.var 1) false false)))).errors =
      [⟨DiagKind.readDuringConstruction, 5, none⟩] := by
  decide

/-! ### Claim C4 -/

/-- C4: on every entry to a callable the construction/branch/loop flags
keep their caller-supplied values (the entry state differs from the
call-site state only in `currentConstructor` and the ghost traces),
`currentConstructor` is set to the entered declaration when it is a
constructor and to `none` otherwise, and is restored on exit. -/
theorem C4_callable_frame (p : Program) (fuel : Nat) (s : VState) (c : Callable)
    (cid : Nat) (ve : Bool) :
    ((analyseCallable p (fuel + 1) s c cid ve).currentConstructor =
      s.currentConstructor) ∧
    ∃ sE : VState,
      sE.inConstructionContext = s.inConstructionContext ∧
      sE.inBranch = s.inBranch ∧
      sE.inLoop = s.inLoop ∧
      sE.visitedCallables = s.visitedCallables ∧
      sE.initializedStateVariables = s.initializedStateVariables ∧
      sE.errors = s.errors ∧
      sE.currentConstructor =
        (match c with
         | Callable.func f => if f.isConstructor then some (cid, f.contractId) else none
         | Callable.modifierDef _ => none) ∧
      analyseCallable p (fuel + 1) s c cid ve =
        { callableInner p fuel sE c with currentConstructor := s.currentConstructor } := by
  refine ⟨analyseCallable_cc p (fuel + 1) s c cid ve, ?_⟩
  refine ⟨{ s with
      walks := s.walks ++ [cid],
      edgeWalks := s.edgeWalks ++ (if ve then [cid] else []),
      currentConstructor :=
        match c with
        | Callable.func f => if f.isConstructor then some (cid, f.contractId) else none
        | Callable.modifierDef _ => none },
    rfl, rfl, rfl, rfl, rfl, rfl, rfl, ?_⟩
  simp [analyseCallable]

/-! ### Claim C10 -/

/-- A minimal modifier used by witnesses. -/
def mW : ModDef :=
  { name := "m", contractId := 10, virtualSem := false, body := Stmt.block [] }

/-- C10: a modifier body is walked with `currentConstructor = none`
(saved and restored around it, caller flags kept); the walk itself never
changes `currentConstructor`, so it stays `none` throughout the body;
consequently a simple assignment to an immutable variable under an
unset constructor reports `invalidInitLocation`, and a return statement
under an unset constructor never runs the completeness check. -/
theorem C10_modifier_body_no_constructor (p : Program) (fuel : Nat) (s : VState)
    (m : ModDef) (cid : Nat) (ve : Bool) :
    (∃ sE : VState,
      sE.currentConstructor = none ∧
      sE.inConstructionContext = s.inConstructionContext ∧
      sE.inBranch = s.inBranch ∧
      sE.inLoop = s.inLoop ∧
      sE.errors = s.errors ∧
      sE.initializedStateVariables = s.initializedStateVariables ∧
      sE.visitedCallables = s.visitedCallables ∧
      analyseCallable p (fuel + 2) s (Callable.modifierDef m) cid ve =
        { visitStmt p fuel sE m.body with currentConstructor := s.currentConstructor }) ∧
    (∀ fuel2 (t : VState) (st : Stmt),
      (visitStmt p fuel2 t st).currentConstructor = t.currentConstructor) ∧
    (∀ fuel2 (t : VState) (e : Expr),
      (visitExpr p fuel2 t e).currentConstructor = t.currentConstructor) ∧
    (∀ (t : VState) (loc vid : Nat) (vd : VarDecl), t.currentConstructor = none →
      p.vars.lookup vid = some vd → vd.isStateVariable = true → vd.immutable = true →
      ∃ ds, (visitExpr p (fuel + 1) t
          (Expr.ident loc (RefDecl.var vid) true true)).errors =
        t.errors ++ [⟨DiagKind.invalidInitLocation, loc, none⟩] ++ ds) ∧
    (∀ (t : VState) (rloc : Nat) (oe : Option Expr), t.currentConstructor = none →
      visitStmt p (fuel + 1) t (Stmt.ret rloc oe) =
        match oe with
        | some e => visitExpr p fuel t e
        | none => t) := by
  refine ⟨?_, fun fuel2 t st => (walk_preserves_cc p fuel2).2.2.1 t st,
    fun fuel2 t e => (walk_preserves_cc p fuel2).1 t e, ?_,
    fun t rloc oe h => visitStmt_ret_none_eq p fuel t rloc oe h⟩
  · refine ⟨{ s with
        walks := s.walks ++ [cid],
        edgeWalks := s.edgeWalks ++ (if ve then [cid] else []),
        currentConstructor := none },
      rfl, rfl, rfl, rfl, rfl, rfl, rfl, ?_⟩
    simp [analyseCallable, callableInner]
  · intro t loc vid vd hcc hv hsv him
    rw [visitExpr_assign_eq p fuel t loc vid vd hv hsv him]
    refine ⟨(if vid ∈ t.initializedStateVariables then
      [⟨DiagKind.doubleInit, loc, none⟩] else []), ?_⟩
    rw [(assignLocErrors_cases t vd loc).1 hcc]

/-- Witness for C10 at concrete inputs. -/
theorem C10_witness :
    ((visitStmt pW 4 ({} : VState) (Stmt.block [])).currentConstructor = none) ∧
    (∃ ds, (visitExpr pW 1 ({} : VState)
        (Expr.ident 5 (RefDecl.var 1) true true)).errors =
      ([] : List Diag) ++ [⟨DiagKind.invalidInitLocation, 5, none⟩] ++ ds) ∧
    (visitStmt pW 1 ({} : VState) (Stmt.ret 9 none) = ({} : VState)) := by
  have h := C10_modifier_body_no_constructor pW 0 ({} : VState) mW 3 false
  refine ⟨?_, ?_, ?_⟩
  · rw [h.2.1 4 ({} : VState) (Stmt.block [])]
  · exact h.2.2.2.1 ({} : VState) 5 1 xVarW rfl rfl rfl rfl
  · exact h.2.2.2.2 ({} : VState) 9 none rfl

/-! ### Claim C5 -/

/-- Modelled from the spec: a function matches when its name, parameter
types and return types equal the original's. -/
def isFuncMatch (p : Program) (orig : FuncDef) (fid : Nat) : Bool :=
  match p.callables.lookup fid with
  | some (Callable.func g) =>
      g.name == orig.name && (hasEqualReturnTypes g orig && hasEqualParameterTypes g orig)
  | _ => false

/-- Modelled from the spec: a modifier matches by name alone. -/
def isModMatch (p : Program) (orig : ModDef) (mid : Nat) : Bool :=
  match p.callables.lookup mid with
  | some (Callable.modifierDef m) => orig.name == m.name
  | _ => false

/-- Modelled from the spec: the flattened scan order of defined
functions over `linearized_bases`, most-derived to most-base. -/
def linearizedFunctions (p : Program) : List Nat :=
  p.currentContract.linearizedBaseContracts.flatMap fun kid =>
    match p.contracts.lookup kid with
    | some k => k.definedFunctions
    | none => []

/-- Modelled from the spec: the flattened scan order of defined
modifiers over `linearized_bases`. -/
def linearizedModifiers (p : Program) : List Nat :=
  p.currentContract.linearizedBaseContracts.flatMap fun kid =>
    match p.contracts.lookup kid with
    | some k => k.functionModifiers
    | none => []

theorem findFuncIn_eq_find (p : Program) (orig : FuncDef) (l : List Nat) :
    findFuncIn p orig l = l.find? (isFuncMatch p orig) := by
  induction l with
  | nil => rfl
  | cons fid rest ih =>
    simp only [findFuncIn, List.find?]
    cases hl : p.callables.lookup fid with
    | none => simp [isFuncMatch, hl, ih]
    | some c =>
      cases c with
      | func g =>
        by_cases hcond : (g.name == orig.name
            && (hasEqualReturnTypes g orig && hasEqualParameterTypes g orig)) = true
        · simp [isFuncMatch, hl, hcond]
        · simp [isFuncMatch, hl, hcond, ih]
      | modifierDef m => simp [isFuncMatch, hl, ih]

theorem findModIn_eq_find (p : Program) (orig : ModDef) (l : List Nat) :
    findModIn p orig l = l.find? (isModMatch p orig) := by
  induction l with
  | nil => rfl
  | cons mid rest ih =>
    simp only [findModIn, List.find?]
    cases hl : p.callables.lookup mid with
    | none => simp [isModMatch, hl, ih]
    | some c =>
      cases c with
      | func g => simp [isModMatch, hl, ih]
      | modifierDef m =>
        by_cases hcond : (orig.name == m.name) = true
        · simp [isModMatch, hl, hcond]
        · simp [isModMatch, hl, hcond, ih]

theorem findFuncOverride_eq_find (p : Program) (orig : FuncDef) (l : List Nat) :
    findFuncOverride p orig l =
      (l.flatMap fun kid =>
        match p.contracts.lookup kid with
        | some k => k.definedFunctions
        | none => []).find? (isFuncMatch p orig) := by
  induction l with
  | nil => rfl
  | cons kid rest ih =>
    simp only [findFuncOverride, List.flatMap_cons, List.find?_append]
    cases hk : p.contracts.lookup kid with
    | none => simpa using ih
    | some k =>
      cases hf : k.definedFunctions.find? (isFuncMatch p orig) with
      | none => simp [findFuncIn_eq_find, hf, ih]
      | some fid => simp [findFuncIn_eq_find, hf]

theorem findModOverride_eq_find (p : Program) (orig : ModDef) (l : List Nat) :
    findModOverride p orig l =
      (l.flatMap fun kid =>
        match p.contracts.lookup kid with
        | some k => k.functionModifiers
        | none => []).find? (isModMatch p orig) := by
  induction l with
  | nil => rfl
  | cons kid rest ih =>
    simp only [findModOverride, List.flatMap_cons, List.find?_append]
    cases hk : p.contracts.lookup kid with
    | none => simpa using ih
    | some k =>
      cases hf : k.functionModifiers.find? (isModMatch p orig) with
      | none => simp [findModIn_eq_find, hf, ih]
      | some mid => simp [findModIn_eq_find, hf]

/-- C5: `findFinalOverride` returns a non-virtual callable unchanged;
for a virtual function it returns the first function in the
most-derived-to-most-base scan of the linearized bases whose name and
parameter/return types equal the original's; for a virtual modifier,
the first with a matching name; and the original when no match exists. -/
theorem C5_find_final_override (p : Program) (cid : Nat) :
    (∀ c, p.callables.lookup cid = some c → virtualSemantics c = false →
      findFinalOverride p cid = cid) ∧
    (∀ f, p.callables.lookup cid = some (Callable.func f) → f.virtualSem = true →
      findFinalOverride p cid =
        ((linearizedFunctions p).find? (isFuncMatch p f)).getD cid) ∧
    (∀ m, p.callables.lookup cid = some (Callable.modifierDef m) → m.virtualSem = true →
      findFinalOverride p cid =
        ((linearizedModifiers p).find? (isModMatch p m)).getD cid) ∧
    (∀ f, p.callables.lookup cid = some (Callable.func f) →
      (linearizedFunctions p).find? (isFuncMatch p f) = none →
      findFinalOverride p cid = cid) ∧
    (∀ m, p.callables.lookup cid = some (Callable.modifierDef m) →
      (linearizedModifiers p).find? (isModMatch p m) = none →
      findFinalOverride p cid = cid) := by
  refine ⟨?_, ?_, ?_, ?_, ?_⟩
  · intro c hc hv
    simp [findFinalOverride, hc, hv]
  · intro f hc hv
    simp [findFinalOverride, hc, virtualSemantics, hv,
      findFuncOverride_eq_find, linearizedFunctions]
  · intro m hc hv
    simp [findFinalOverride, hc, virtualSemantics, hv,
      findModOverride_eq_find, linearizedModifiers]
  · intro f hc hnone
    by_cases hv : f.virtualSem = true
    · rw [show findFinalOverride p cid =
          ((linearizedFunctions p).find? (isFuncMatch p f)).getD cid by
            simp [findFinalOverride, hc, virtualSemantics, hv,
              findFuncOverride_eq_find, linearizedFunctions], hnone]
      rfl
    · simp only [Bool.not_eq_true] at hv
      simp [findFinalOverride, hc, virtualSemantics, hv]
  · intro m hc hnone
    by_cases hv : m.virtualSem = true
    · rw [show findFinalOverride p cid =
          ((linearizedModifiers p).find? (isModMatch p m)).getD cid by
            simp [findFinalOverride, hc, virtualSemantics, hv,
              findModOverride_eq_find, linearizedModifiers], hnone]
      rfl
    · simp only [Bool.not_eq_true] at hv
      simp [findFinalOverride, hc, virtualSemantics, hv]

/-- A virtual base function, fixtures for the C5 witness. -/
def fBaseW : FuncDef :=
  { name := "f", contractId := 10, isConstructor := false, virtualSem := true,
    paramTypes := [1], returnTypes := [2], modifiers := [], implemented := true,
    body := Stmt.block [] }

/-- The most-derived override of `fBaseW`. -/
def fOverW : FuncDef := { fBaseW with contractId := 20 }

/-- The base contract of the C5 witness. -/
def contractAW : Contract :=
  { loc := 0, linearizedBaseContracts := [], baseContractArgs := [],
    definedFunctions := [100], functionModifiers := [], stateVariables := [] }

/-- The derived contract of the C5 witness (linearization most-derived
first). -/
def contractBW : Contract :=
  { loc := 0, linearizedBaseContracts := [20, 10], baseContractArgs := [],
    definedFunctions := [200], functionModifiers := [], stateVariables := [] }

/-- The C5 witness program. -/
def pC5 : Program :=
  { callables := [(100, Callable.func fBaseW), (200, Callable.func fOverW)],
    vars := [], contracts := [(10, contractAW), (20, contractBW)],
    currentContract := contractBW }

/-- Witness for C5: the virtual base function resolves to the
most-derived override. -/
theorem C5_witness :
    (findFinalOverride pC5 100 =
      ((linearizedFunctions pC5).find? (isFuncMatch pC5 fBaseW)).getD 100) ∧
    findFinalOverride pC5 100 = 200 := by
  have h := (C5_find_final_override pC5 100).2.1 fBaseW rfl rfl
  exact ⟨h, by decide⟩

/-! ### Claim C9 -/

/-- Membership characterization of the diagnostics added by the
completeness check. -/
theorem checkAll_errors_mem (p : Program) (loc : Nat) (s : VState) (d : Diag) :
    d ∈ (checkAllVariablesInitialized p loc s).errors ↔
      d ∈ s.errors ∨ ∃ vid vd, vid ∈ p.currentContract.stateVariables ∧
        p.vars.lookup vid = some vd ∧ vd.immutable = true ∧
        vid ∉ s.initializedStateVariables ∧
        d = ⟨DiagKind.incompleteConstruction, loc, some vd.loc⟩ := by
  simp only [checkAllVariablesInitialized, List.mem_append, List.mem_filterMap]
  refine or_congr Iff.rfl ?_
  constructor
  · rintro ⟨vid, hmem, hf⟩
    cases hl : p.vars.lookup vid with
    | none => simp [hl] at hf
    | some vd =>
      by_cases h1 : vd.immutable = true
      · by_cases h2 : vid ∈ s.initializedStateVariables
        · simp [hl, h1, h2] at hf
        · simp [hl, h1, h2] at hf
          exact ⟨vid, vd, hmem, hl, h1, h2, hf.symm⟩
      · simp [hl, h1] at hf
  · rintro ⟨vid, vd, hmem, hl, him, hni, rfl⟩
    refine ⟨vid, hmem, ?_⟩
    simp [hl, him, hni]

/-- C9: the completeness check emits one `incompleteConstruction`
diagnostic at the given location, with secondary annotation at the
variable's declaration, exactly for the immutable state variables
visible to the contract that are absent from the initialized set; it is
invoked (appending to the ghost location trace) at every return
statement whose enclosing constructor is set; and a non-aborting
`analyze` ends with exactly one invocation at the contract's own
location. -/
theorem C9_completeness_check (p : Program) (fuel : Nat) :
    (∀ (loc : Nat) (s : VState) (d : Diag),
      d ∈ (checkAllVariablesInitialized p loc s).errors ↔
        d ∈ s.errors ∨ ∃ vid vd, vid ∈ p.currentContract.stateVariables ∧
          p.vars.lookup vid = some vd ∧ vd.immutable = true ∧
          vid ∉ s.initializedStateVariables ∧
          d = ⟨DiagKind.incompleteConstruction, loc, some vd.loc⟩) ∧
    (∀ (s : VState) (rloc : Nat) (oe : Option Expr) (cc : Nat × Nat),
      s.currentConstructor = some cc →
      visitStmt p (fuel + 1) s (Stmt.ret rloc oe) =
        checkAllVariablesInitialized p rloc
          (match oe with
           | some e => visitExpr p fuel s e
           | none => s) ∧
      (visitStmt p (fuel + 1) s (Stmt.ret rloc oe)).checkAllLocs =
        (match oe with
         | some e => visitExpr p fuel s e
         | none => s).checkAllLocs ++ [rloc]) ∧
    ((analyze p fuel).assertFailed = false →
      ∃ s2, analyze p fuel = checkAllVariablesInitialized p p.currentContract.loc s2 ∧
        (analyze p fuel).checkAllLocs = s2.checkAllLocs ++ [p.currentContract.loc]) := by
  refine ⟨checkAll_errors_mem p, ?_, ?_⟩
  · intro s rloc oe cc hcc
    have h := visitStmt_ret_some_eq p fuel s rloc oe cc hcc
    exact ⟨h, by rw [h]; rfl⟩
  · intro h
    cases hf : (initStateVars p fuel { inConstructionContext := true }
        p.currentContract.stateVariables).assertFailed with
    | true =>
      exfalso
      have heq : analyze p fuel = initStateVars p fuel { inConstructionContext := true }
          p.currentContract.stateVariables := by
        simp [analyze, hf]
      rw [heq, hf] at h
      simp at h
    | false =>
      refine ⟨contractLoop p fuel
        (initStateVars p fuel { inConstructionContext := true }
          p.currentContract.stateVariables)
        p.currentContract.linearizedBaseContracts.reverse, ?_, ?_⟩ <;>
      simp [analyze, hf, checkAllVariablesInitialized]

/-- Witness for C9: a return inside a constructor runs the completeness
check, which reports the uninitialized immutable variable. -/
theorem C9_witness :
    (visitStmt pW 1 { currentConstructor := some (0, 10) } (Stmt.ret 9 none) =
      checkAllVariablesInitialized pW 9 { currentConstructor := some (0, 10) }) ∧
    ((⟨DiagKind.incompleteConstruction, 9, some 1⟩ : Diag) ∈
      (visitStmt pW 1 { currentConstructor := some (0, 10) } (Stmt.ret 9 none)).errors) ∧
    (∃ s2, analyze pW 5 = checkAllVariablesInitialized pW 0 s2 ∧
      (analyze pW 5).checkAllLocs = s2.checkAllLocs ++ [0]) := by
  have h := C9_completeness_check pW 0
  have h2 := (h.2.1 { currentConstructor := some (0, 10) } 9 none (0, 10) rfl).1
  refine ⟨h2, ?_, h.2.2 (by decide)⟩
  rw [h2]
  exact ((h.1 9 { currentConstructor := some (0, 10) }
    ⟨DiagKind.incompleteConstruction, 9, some 1⟩).mpr
    (Or.inr ⟨1, xVarW, by decide, rfl, rfl, by decide, rfl⟩))

/-! ### Claim C1: the edge-walk discipline -/

/-- The visited-callable set grows monotonically along the walk. -/
def Mono (s t : VState) : Prop :=
  ∀ id, id ∈ s.visitedCallables → id ∈ t.visitedCallables

/-- The edge-walk discipline between a state and a later state of the
same walk: the visited set grows; the ghost edge trace is extended by a
suffix that never enters a callable already visited at the start,
enters an unvisited one at most once, and leaves any entered callable
visited. -/
def EStep (s t : VState) : Prop :=
  Mono s t ∧
  ∃ w, t.edgeWalks = s.edgeWalks ++ w ∧
    ∀ id : Nat, (w.count id ≤ if id ∈ s.visitedCallables then 0 else 1) ∧
      (0 < w.count id → id ∈ t.visitedCallables)

/-- Variant of the discipline for a callable entered through a call edge
with the callee `cid` already inserted: the callee itself is traced
exactly once more. -/
def EStepA (cid : Nat) (s t : VState) : Prop :=
  Mono s t ∧
  ∃ w, t.edgeWalks = s.edgeWalks ++ w ∧
    ∀ id : Nat,
      (w.count id ≤ if id = cid then 1 else if id ∈ s.visitedCallables then 0 else 1) ∧
      (0 < w.count id → id ≠ cid → id ∈ t.visitedCallables)

theorem EStep.refl (s : VState) : EStep s s := by
  refine ⟨fun id h => h, [], by simp, fun id => ⟨?_, by simp⟩⟩
  split <;> simp

/-- A step that keeps the visited set (up to growth) and the edge trace
satisfies the discipline trivially. -/
theorem EStep.of_grow {s t : VState} (h1 : Mono s t) (h2 : t.edgeWalks = s.edgeWalks) :
    EStep s t := by
  refine ⟨h1, [], by simp [h2], fun id => ⟨?_, by simp⟩⟩
  split <;> simp

theorem EStep.of_fields {s t : VState} (h1 : t.visitedCallables = s.visitedCallables)
    (h2 : t.edgeWalks = s.edgeWalks) : EStep s t :=
  EStep.of_grow (fun id h => h1 ▸ h) h2

theorem EStep.trans {s t u : VState} (h1 : EStep s t) (h2 : EStep t u) : EStep s u := by
  obtain ⟨m1, w1, e1, b1⟩ := h1
  obtain ⟨m2, w2, e2, b2⟩ := h2
  refine ⟨fun id h => m2 id (m1 id h), w1 ++ w2, by rw [e2, e1, List.append_assoc], ?_⟩
  intro id
  have hc : (w1 ++ w2).count id = w1.count id + w2.count id := List.count_append ..
  constructor
  · rw [hc]
    by_cases hs : id ∈ s.visitedCallables
    · have ht : id ∈ t.visitedCallables := m1 id hs
      have := (b1 id).1
      have := (b2 id).1
      simp [hs, ht] at *
      omega
    · by_cases ht : id ∈ t.visitedCallables
      · have g1 := (b1 id).1
        have g2 := (b2 id).1
        simp [hs, ht] at g1 g2 ⊢
        omega
      · have g1 := (b1 id).2
        have g2 := (b2 id).1
        have g1z : w1.count id = 0 := by
          by_contra hn
          exact ht (g1 (Nat.pos_of_ne_zero hn))
        simp [hs, ht] at g2 ⊢
        omega
  · rw [hc]
    intro hpos
    rcases Nat.lt_or_ge 0 (w2.count id) with h2p | h2z
    · exact (b2 id).2 h2p
    · have h1p : 0 < w1.count id := by omega
      exact m2 id ((b1 id).2 h1p)

/-- Composing the call-edge pattern: insert the callee, then walk it
under the `EStepA` discipline. -/
theorem EStep.edge {s t : VState} (cid : Nat) (hnot : cid ∉ s.visitedCallables)
    (h : EStepA cid { s with visitedCallables := cid :: s.visitedCallables } t) :
    EStep s t := by
  obtain ⟨m, w, e, b⟩ := h
  refine ⟨fun id hm => m id (List.mem_cons_of_mem cid hm), w, e, ?_⟩
  intro id
  constructor
  · by_cases hic : id = cid
    · subst hic
      have := (b id).1
      simp [hnot] at this ⊢
      omega
    · have := (b id).1
      simp only [hic, if_false] at this
      by_cases hs : id ∈ s.visitedCallables
      · have : w.count id ≤ 0 := by
          simpa [List.mem_cons, hic, hs] using this
        simp [hs]
        omega
      · have : w.count id ≤ 1 := by
          by_cases hm2 : id ∈ ({ s with
              visitedCallables := cid :: s.visitedCallables } : VState).visitedCallables <;>
            simp [hm2] at this <;> omega
        simp [hs]
        omega
  · intro hpos
    by_cases hic : id = cid
    · subst hic
      exact m id (List.mem_cons_self id s.visitedCallables)
    · exact (b id).2 hpos hic

theorem EStep.update_inBranch (s : VState) (b : Bool) :
    EStep s { s with inBranch := b } := EStep.of_fields (Eq.refl _) (Eq.refl _)

theorem EStep.update_inLoop (s : VState) (b : Bool) :
    EStep s { s with inLoop := b } := EStep.of_fields (Eq.refl _) (Eq.refl _)

theorem EStep.update_cc (s : VState) (c2 : Option (Nat × Nat)) :
    EStep s { s with currentConstructor := c2 } := EStep.of_fields (Eq.refl _) (Eq.refl _)

theorem EStep.checkAll (p : Program) (loc : Nat) (s : VState) :
    EStep s (checkAllVariablesInitialized p loc s) :=
  EStep.of_fields (Eq.refl _) (Eq.refl _)

/-- Unfolding of a call-edge entry to `analyseCallable`. -/
theorem analyseCallable_true_eq (p : Program) (fuel : Nat) (s : VState) (c : Callable)
    (cid : Nat) :
    analyseCallable p (fuel + 1) s c cid true =
      { callableInner p fuel { s with
          walks := s.walks ++ [cid],
          edgeWalks := s.edgeWalks ++ [cid],
          currentConstructor :=
            match c with
            | Callable.func f =>
                if f.isConstructor then some (cid, f.contractId) else none
            | Callable.modifierDef _ => none } c with
        currentConstructor := s.currentConstructor } := by
  simp [analyseCallable]

/-- Unfolding of a driver entry to `analyseCallable`. -/
theorem analyseCallable_false_eq (p : Program) (fuel : Nat) (s : VState) (c : Callable)
    (cid : Nat) :
    analyseCallable p (fuel + 1) s c cid false =
      { callableInner p fuel { s with
          walks := s.walks ++ [cid],
          currentConstructor :=
            match c with
            | Callable.func f =>
                if f.isConstructor then some (cid, f.contractId) else none
            | Callable.modifierDef _ => none } c with
        currentConstructor := s.currentConstructor } := by
  simp [analyseCallable]

theorem EStepA.arefl (cid : Nat) (s : VState) : EStepA cid s s := by
  refine ⟨fun id h => h, [], by simp, fun id => ⟨?_, by simp⟩⟩
  split <;> [exact Nat.zero_le _; skip]
  split <;> exact Nat.zero_le _

/-- Every walker step obeys the edge-walk discipline; a call-edge entry
to `analyseCallable` with the callee pre-inserted obeys the tagged
variant. -/
theorem estep_walk (p : Program) : ∀ fuel : Nat,
    (∀ s e, EStep s (visitExpr p fuel s e)) ∧
    (∀ s es, EStep s (visitExprs p fuel s es)) ∧
    (∀ s st, EStep s (visitStmt p fuel s st)) ∧
    (∀ s sts, EStep s (visitStmts p fuel s sts)) ∧
    (∀ s c, EStep s (callableInner p fuel s c)) ∧
    (∀ s c cid, EStep s (analyseCallable p fuel s c cid false)) ∧
    (∀ s c cid, cid ∈ s.visitedCallables →
      EStepA cid s (analyseCallable p fuel s c cid true)) := by
  intro fuel
  induction fuel with
  | zero =>
    exact ⟨fun s _ => EStep.refl s, fun s _ => EStep.refl s, fun s _ => EStep.refl s,
      fun s _ => EStep.refl s, fun s _ => EStep.refl s, fun s _ _ => EStep.refl s,
      fun s _ cid _ => EStepA.arefl cid s⟩
  | succ fuel ih =>
    obtain ⟨ihE, ihES, ihS, ihSS, ihCI, ihAC1, ihAC2⟩ := ih
    have hExpr : ∀ s e, EStep s (visitExpr p (fuel + 1) s e) := by
      intro s e
      cases e with
      | ident loc ref lval ord =>
        cases ref with
        | callable cid2 =>
          by_cases hm : findFinalOverride p cid2 ∈ s.visitedCallables
          · simp only [visitExpr, hm, if_true]
            exact EStep.refl s
          · cases hl : p.callables.lookup (findFinalOverride p cid2) with
            | none =>
              simp only [visitExpr, hm, if_false, hl]
              exact EStep.of_grow (fun id h => List.mem_cons_of_mem _ h) rfl
            | some c =>
              simp only [visitExpr, hm, if_false, hl]
              exact EStep.edge _ hm (ihAC2 _ c _ (List.mem_cons_self _ _))
        | var vid =>
          cases hl : p.vars.lookup vid with
          | none => simp only [visitExpr, hl]; exact EStep.refl s
          | some vd =>
            simp only [visitExpr, hl]
            by_cases h1 : (!(vd.isStateVariable && vd.immutable)) = true
            · simp only [h1, if_true]; exact EStep.refl s
            · by_cases h2 : (lval && ord) = true
              · simp only [h1, h2, if_false, if_true]
                exact EStep.of_fields rfl rfl
              · by_cases h3 : s.inConstructionContext
                · simp only [h1, h2, h3, if_false, if_true]
                  exact EStep.of_fields rfl rfl
                · simp only [h1, h2, h3, if_false]
                  exact EStep.refl s
        | otherDecl => simp only [visitExpr]; exact EStep.refl s
      | member e1 ft =>
        have h1 : EStep s (visitExpr p fuel s e1) := ihE s e1
        cases ft with
        | none => simp only [visitExpr]; exact h1
        | some f =>
          by_cases hk : (f.kind == FTKind.internalKind || f.kind == FTKind.declarationKind) = true
          · cases hd : f.decl with
            | none => simp only [visitExpr, hk, hd, if_true]; exact h1
            | some did =>
              by_cases hm : did ∈ (visitExpr p fuel s e1).visitedCallables
              · simp only [visitExpr, hk, hd, hm, if_true]
                exact h1
              · cases hl : p.callables.lookup did with
                | none =>
                  simp only [visitExpr, hk, hd, hm, hl, if_true, if_false]
                  exact h1.trans
                    (EStep.of_grow (fun id h => List.mem_cons_of_mem _ h) rfl)
                | some c =>
                  simp only [visitExpr, hk, hd, hm, hl, if_true, if_false]
                  exact h1.trans
                    (EStep.edge _ hm (ihAC2 _ c _ (List.mem_cons_self _ _)))
          · simp only [visitExpr, hk, if_false, Bool.false_eq_true]
            exact h1
      | otherExpr es =>
        simp only [visitExpr]
        exact ihES s es
    have hStmt : ∀ s st, EStep s (visitStmt p (fuel + 1) s st) := by
      intro s st
      cases st with
      | ifStmt c t fs =>
        cases fs with
        | none =>
          simp only [visitStmt]
          exact (((ihE s c).trans (EStep.update_inBranch _ true)).trans
            (ihS _ t)).trans (EStep.update_inBranch _ s.inBranch)
        | some f =>
          simp only [visitStmt]
          exact ((((ihE s c).trans (EStep.update_inBranch _ true)).trans
            (ihS _ t)).trans (ihS _ f)).trans (EStep.update_inBranch _ s.inBranch)
      | whileStmt c b =>
        simp only [visitStmt]
        exact (((EStep.update_inLoop s true).trans (ihE _ c)).trans
          (ihS _ b)).trans (EStep.update_inLoop _ s.inLoop)
      | ret rloc oe =>
        cases hcc : s.currentConstructor with
        | none =>
          rw [visitStmt_ret_none_eq p fuel s rloc oe hcc]
          cases oe with
          | none => exact EStep.refl s
          | some e => exact ihE s e
        | some cc =>
          rw [visitStmt_ret_some_eq p fuel s rloc oe cc hcc]
          cases oe with
          | none => exact EStep.checkAll p rloc s
          | some e => exact (ihE s e).trans (EStep.checkAll p rloc _)
      | block sts =>
        simp only [visitStmt]
        exact ihSS s sts
      | exprStmt e =>
        simp only [visitStmt]
        exact ihE s e
    have hCI : ∀ s c, EStep s (callableInner p (fuel + 1) s c) := by
      intro s c
      cases c with
      | func f =>
        by_cases himp : f.implemented = true
        · simp only [callableInner, himp, if_true]
          exact (ihES s f.modifiers).trans (ihS _ f.body)
        · simp only [callableInner, himp, if_false, Bool.false_eq_true]
          exact ihES s f.modifiers
      | modifierDef m =>
        simp only [callableInner]
        exact ihS s m.body
    refine ⟨hExpr, ?_, hStmt, ?_, hCI, ?_, ?_⟩
    · intro s es
      cases es with
      | nil => exact EStep.refl s
      | cons e es =>
        simp only [visitExprs]
        exact (ihE s e).trans (ihES _ es)
    · intro s sts
      cases sts with
      | nil => exact EStep.refl s
      | cons st sts =>
        simp only [visitStmts]
        exact (ihS s st).trans (ihSS _ sts)
    · intro s c cid
      rw [analyseCallable_false_eq]
      have h0 : EStep s ({ s with
          walks := s.walks ++ [cid],
          currentConstructor :=
            match c with
            | Callable.func f =>
                if f.isConstructor then some (cid, f.contractId) else none
            | Callable.modifierDef _ => none } : VState) :=
        EStep.of_fields (Eq.refl _) (Eq.refl _)
      exact (h0.trans (ihCI _ c)).trans (EStep.update_cc _ s.currentConstructor)
    · intro s c cid hpre
      rw [analyseCallable_true_eq]
      obtain ⟨m, w, e, b⟩ := ihCI ({ s with
        walks := s.walks ++ [cid],
        edgeWalks := s.edgeWalks ++ [cid],
        currentConstructor :=
          match c with
          | Callable.func f => if f.isConstructor then some (cid, f.contractId) else none
          | Callable.modifierDef _ => none } : VState) c
      refine ⟨fun id h => m id h, [cid] ++ w, ?_, ?_⟩
      · rw [e]
        simp
      · intro id
        have hc : ([cid] ++ w).count id = [cid].count id + w.count id :=
          List.count_append ..
        constructor
        · rw [hc]
          by_cases hic : id = cid
          · subst hic
            have hbv : w.count id = 0 :=
              Nat.le_zero.mp (by simpa [hpre] using (b id).1)
            have h1 : ([id] : List Nat).count id = 1 := by simp
            simp only [if_pos (Eq.refl id)]
            rw [h1, hbv]
            simp
          · have hb := (b id).1
            have hz : ([cid] : List Nat).count id = 0 := by
              simp [List.count_singleton', hic]
            rw [hz]
            simpa [hic] using hb
        · rw [hc]
          intro hpos hic
          have hz : ([cid] : List Nat).count id = 0 := by
            simp [List.count_singleton', hic]
          exact (b id).2 (by omega)

theorem EStep.update_init (s : VState) (l2 : List Nat) :
    EStep s { s with initializedStateVariables := l2 } :=
  EStep.of_fields (Eq.refl _) (Eq.refl _)

theorem EStep.update_assert (s : VState) (b : Bool) :
    EStep s { s with assertFailed := b } :=
  EStep.of_fields (Eq.refl _) (Eq.refl _)

theorem EStep.update_inCC (s : VState) (b : Bool) :
    EStep s { s with inConstructionContext := b } :=
  EStep.of_fields (Eq.refl _) (Eq.refl _)

theorem EStep.insertVis (s : VState) (x : Nat) :
    EStep s { s with visitedCallables := insertId x s.visitedCallables } :=
  EStep.of_grow
    (fun id h => by
      unfold insertId
      split
      · exact h
      · exact List.mem_cons_of_mem _ h)
    (Eq.refl _)

theorem estep_initStateVars (p : Program) (fuel : Nat) :
    ∀ (l : List Nat) (s : VState), EStep s (initStateVars p fuel s l) := by
  intro l
  induction l with
  | nil => exact fun s => EStep.refl s
  | cons vid rest ih =>
    intro s
    cases hl : p.vars.lookup vid with
    | none => simp only [initStateVars, hl]; exact ih s
    | some vd =>
      cases hv : vd.value with
      | none => simp only [initStateVars, hl, hv]; exact ih s
      | some e =>
        by_cases hm : vid ∈ (visitExpr p fuel s e).initializedStateVariables
        · simp only [initStateVars, hl, hv, hm, if_true]
          exact ((estep_walk p fuel).1 s e).trans (EStep.update_assert _ true)
        · simp only [initStateVars, hl, hv, hm, if_false]
          exact (((estep_walk p fuel).1 s e).trans
            (EStep.update_init _ _)).trans (ih _)

theorem estep_visitBaseArgs (p : Program) (fuel : Nat) :
    ∀ (bs : List (Option (List Expr))) (s : VState), EStep s (visitBaseArgs p fuel s bs) := by
  intro bs
  induction bs with
  | nil => exact fun s => EStep.refl s
  | cons ob rest ih =>
    intro s
    cases ob with
    | none => simp only [visitBaseArgs]; exact ih s
    | some args =>
      simp only [visitBaseArgs]
      exact ((estep_walk p fuel).2.1 s args).trans (ih _)

theorem estep_sweep (p : Program) (fuel : Nat) :
    ∀ (ids : List Nat) (s : VState), EStep s (sweepCallables p fuel s ids) := by
  intro ids
  induction ids with
  | nil => exact fun s => EStep.refl s
  | cons fid rest ih =>
    intro s
    by_cases hm : fid ∈ s.visitedCallables
    · simp only [sweepCallables, hm, if_true]; exact ih s
    · cases hl : p.callables.lookup fid with
      | none => simp only [sweepCallables, hm, if_false, hl]; exact ih s
      | some c =>
        simp only [sweepCallables, hm, if_false, hl]
        exact ((estep_walk p fuel).2.2.2.2.2.1 s c fid).trans (ih _)

theorem estep_contractPhase (p : Program) (fuel : Nat) (s : VState) (k : Contract) :
    EStep s (contractPhase p fuel s k) := by
  unfold contractPhase
  cases hco : constructorOf p k with
  | none =>
    exact (((EStep.update_inCC s true).trans
      (estep_visitBaseArgs p fuel k.baseContractArgs _)).trans
      (EStep.update_inCC _ false)).trans
      ((estep_sweep p fuel k.definedFunctions _).trans
        (estep_sweep p fuel k.functionModifiers _))
  | some cf =>
    exact ((((((EStep.update_inCC s true).trans
      ((estep_walk p fuel).2.2.2.2.2.1 _ (Callable.func cf.2) cf.1)).trans
      (EStep.insertVis _ cf.1)).trans
      (estep_visitBaseArgs p fuel k.baseContractArgs _)).trans
      (EStep.update_inCC _ false)).trans
      (estep_sweep p fuel k.definedFunctions _)).trans
      (estep_sweep p fuel k.functionModifiers _)

theorem estep_contractLoop (p : Program) (fuel : Nat) :
    ∀ (kids : List Nat) (s : VState), EStep s (contractLoop p fuel s kids) := by
  intro kids
  induction kids with
  | nil => exact fun s => EStep.refl s
  | cons kid rest ih =>
    intro s
    cases hk : p.contracts.lookup kid with
    | none => simp only [contractLoop, hk]; exact ih s
    | some k =>
      simp only [contractLoop, hk]
      exact (estep_contractPhase p fuel s k).trans (ih _)

/-- C1 (amended): during one run of `analyze`, each callable is entered
through a call edge (identifier reference or member access) at most
once — the call-edge sites insert the callee into the visited set
before descending and never descend on a failed insertion.  (The
driver's constructor walk and top-level sweep do not record the entered
callable, which is why a body they entered can still be entered once
more through a call edge; see the counterexample.) -/
theorem C1_edge_entry_at_most_once (p : Program) (fuel : Nat) (id : Nat) :
    (analyze p fuel).edgeWalks.count id ≤ 1 := by
  have h0 : EStep { inConstructionContext := true } (analyze p fuel) := by
    unfold analyze
    by_cases hf : (initStateVars p fuel { inConstructionContext := true }
        p.currentContract.stateVariables).assertFailed = true
    · simp only [hf, if_true]
      exact estep_initStateVars p fuel _ _
    · simp only [hf, if_false, Bool.false_eq_true]
      exact ((estep_initStateVars p fuel _ _).trans
        (estep_contractLoop p fuel _ _)).trans
        (EStep.checkAll p p.currentContract.loc _)
  obtain ⟨m, w, e, b⟩ := h0
  have he : (analyze p fuel).edgeWalks = w := by
    rw [e]
    rfl
  rw [he]
  have hb := (b id).1
  simpa using hb

/-- The recursive function of the C1 counterexample: its body refers to
itself (callable id 101). -/
def gRecW : FuncDef :=
  { name := "g", contractId := 10, isConstructor := false, virtualSem := false,
    paramTypes := [], returnTypes := [], modifiers := [], implemented := true,
    body := Stmt.exprStmt (Expr.ident 60 (RefDecl.callable 101) false false) }

/-- The contract of the C1 counterexample. -/
def contractRecW : Contract :=
  { loc := 0, linearizedBaseContracts := [10], baseContractArgs := [],
    definedFunctions := [101], functionModifiers := [], stateVariables := [] }

/-- The C1 counterexample program: one contract with one directly
recursive function, never reached from a constructor. -/
def pC1 : Program :=
  { callables := [(101, Callable.func gRecW)], vars := [],
    contracts := [(10, contractRecW)], currentContract := contractRecW }

/-- Counterexample to C1 as stated: the driver's sweep enters `g`'s body
without recording it as visited, so the recursive call edge inside the
body enters it a second time — the body is walked twice in one run. -/
theorem C1_counterexample :
    (analyze pC1 10).walks = [101, 101] ∧ (analyze pC1 10).walks.count 101 = 2 := by
  constructor <;> decide

/-! ### Claim C3: when the recording assertion can and cannot fail -/

/-- A successful association-list lookup exhibits a member. -/
theorem lookup_mem {β : Type} : ∀ {l : List (Nat × β)} {k : Nat} {v : β},
    l.lookup k = some v → (k, v) ∈ l := by
  intro l
  induction l with
  | nil => intro k v h; simp at h
  | cons pr rest ih =>
    intro k v h
    obtain ⟨k2, v2⟩ := pr
    rw [List.lookup] at h
    by_cases hk : (k == k2) = true
    · rw [hk] at h
      simp only [Option.some.injEq] at h
      have hkk : k = k2 := eq_of_beq hk
      subst hkk
      subst h
      exact List.mem_cons_self _ _
    · rw [Bool.not_eq_true] at hk
      rw [hk] at h
      exact List.mem_cons_of_mem _ (ih h)

/-- Would an ordinary-lvalue reference to `vid` record it as
initialized (it denotes an immutable state variable)? -/
def varTriggers (p : Program) (vid : Nat) : Bool :=
  match p.vars.lookup vid with
  | some vd => vd.isStateVariable && vd.immutable
  | none => false

/-- Does `vid` denote a variable carrying an initializer expression? -/
def varHasInit (p : Program) (vid : Nat) : Bool :=
  match p.vars.lookup vid with
  | some vd => vd.value.isSome
  | none => false

mutual

/-- No simple assignment inside the expression targets an immutable
state variable that has its own initializer. -/
def exprSafe (p : Program) : Expr → Bool
  | Expr.ident _ (RefDecl.var vid) lval ord =>
      !(lval && ord && (varTriggers p vid && varHasInit p vid))
  | Expr.ident _ (RefDecl.callable _) _ _ => true
  | Expr.ident _ RefDecl.otherDecl _ _ => true
  | Expr.member e _ => exprSafe p e
  | Expr.otherExpr es => exprsSafe p es

/-- `exprSafe` over a list. -/
def exprsSafe (p : Program) : List Expr → Bool
  | [] => true
  | e :: es => exprSafe p e && exprsSafe p es

end

mutual

/-- `exprSafe` over all expressions of a statement. -/
def stmtSafe (p : Program) : Stmt → Bool
  | Stmt.ifStmt c t (some f) => exprSafe p c && (stmtSafe p t && stmtSafe p f)
  | Stmt.ifStmt c t none => exprSafe p c && stmtSafe p t
  | Stmt.whileStmt c b => exprSafe p c && stmtSafe p b
  | Stmt.ret _ (some e) => exprSafe p e
  | Stmt.ret _ none => true
  | Stmt.block sts => stmtsSafe p sts
  | Stmt.exprStmt e => exprSafe p e

/-- `stmtSafe` over a list. -/
def stmtsSafe (p : Program) : List Stmt → Bool
  | [] => true
  | st :: sts => stmtSafe p st && stmtsSafe p sts

end

/-- `exprSafe` over a callable's modifier list and body. -/
def callableSafe (p : Program) : Callable → Bool
  | Callable.func f => exprsSafe p f.modifiers && stmtSafe p f.body
  | Callable.modifierDef m => stmtSafe p m.body

/-- `exprSafe` over the inheritance-specifier argument lists. -/
def baseArgsSafe (p : Program) : List (Option (List Expr)) → Bool
  | [] => true
  | some args :: rest => exprsSafe p args && baseArgsSafe p rest
  | none :: rest => baseArgsSafe p rest

/-- No expression reachable by the walker performs a simple assignment
to a state variable that has its own initializer. -/
def programSafe (p : Program) : Bool :=
  (p.vars.all fun pr =>
    match pr.2.value with
    | some e => exprSafe p e
    | none => true) &&
  ((p.callables.all fun pr => callableSafe p pr.2) &&
   (p.contracts.all fun pr => baseArgsSafe p pr.2.baseContractArgs))

theorem programSafe_var {p : Program} (hp : programSafe p = true) {vid : Nat}
    {vd : VarDecl} {e : Expr} (hl : p.vars.lookup vid = some vd)
    (hv : vd.value = some e) : exprSafe p e = true := by
  unfold programSafe at hp
  simp only [Bool.and_eq_true, List.all_eq_true] at hp
  have h2 := hp.1 _ (lookup_mem hl)
  simpa [hv] using h2

theorem programSafe_callable {p : Program} (hp : programSafe p = true) {cid : Nat}
    {c : Callable} (hl : p.callables.lookup cid = some c) : callableSafe p c = true := by
  unfold programSafe at hp
  simp only [Bool.and_eq_true, List.all_eq_true] at hp
  exact hp.2.1 _ (lookup_mem hl)

theorem programSafe_contract {p : Program} (hp : programSafe p = true) {kid : Nat}
    {k : Contract} (hl : p.contracts.lookup kid = some k) :
    baseArgsSafe p k.baseContractArgs = true := by
  unfold programSafe at hp
  simp only [Bool.and_eq_true, List.all_eq_true] at hp
  exact hp.2.2 _ (lookup_mem hl)

/-- The walker never touches the assertion-failure flag (only the
driver's initializer loop does). -/
theorem walk_preserves_assert (p : Program) : ∀ fuel : Nat,
    (∀ s e, (visitExpr p fuel s e).assertFailed = s.assertFailed) ∧
    (∀ s es, (visitExprs p fuel s es).assertFailed = s.assertFailed) ∧
    (∀ s st, (visitStmt p fuel s st).assertFailed = s.assertFailed) ∧
    (∀ s sts, (visitStmts p fuel s sts).assertFailed = s.assertFailed) ∧
    (∀ s c, (callableInner p fuel s c).assertFailed = s.assertFailed) ∧
    (∀ s c cid ve, (analyseCallable p fuel s c cid ve).assertFailed = s.assertFailed) := by
  intro fuel
  induction fuel with
  | zero =>
    refine ⟨?_, ?_, ?_, ?_, ?_, ?_⟩ <;> intros <;> rfl
  | succ fuel ih =>
    obtain ⟨ihe, ihes, ihs, ihss, ihci, ihac⟩ := ih
    refine ⟨?_, ?_, ?_, ?_, ?_, ?_⟩
    · intro s e
      cases e with
      | ident loc ref lval ord =>
        cases ref with
        | callable cid =>
          simp only [visitExpr]
          by_cases hm : findFinalOverride p cid ∈ s.visitedCallables
          · simp [hm]
          · cases hl : p.callables.lookup (findFinalOverride p cid) <;>
              simp [hm, hl, ihac]
        | var vid =>
          cases hl : p.vars.lookup vid with
          | none => simp [visitExpr, hl]
          | some vd =>
            simp only [visitExpr, hl]
            by_cases h1 : !(vd.isStateVariable && vd.immutable) <;>
              by_cases h2 : (lval && ord) = true <;>
                by_cases h3 : s.inConstructionContext <;> simp [h1, h2, h3]
        | otherDecl => simp [visitExpr]
      | member e1 ft =>
        simp only [visitExpr]
        cases ft with
        | none => exact ihe s e1
        | some f =>
          by_cases hk : (f.kind == FTKind.internalKind || f.kind == FTKind.declarationKind) = true
          · cases hd : f.decl with
            | none => simp [hk, hd, ihe s e1]
            | some did =>
              by_cases hm : did ∈ (visitExpr p fuel s e1).visitedCallables
              · simp [hk, hd, hm, ihe s e1]
              · cases hl : p.callables.lookup did <;>
                  simp [hk, hd, hm, hl, ihac, ihe s e1]
          · simp [hk, ihe s e1]
      | otherExpr es => simp [visitExpr, ihes s es]
    · intro s es
      cases es with
      | nil => rfl
      | cons e es => simp [visitExprs, ihes _ es, ihe s e]
    · intro s st
      cases st with
      | ifStmt c t fs =>
        cases fs <;> simp [visitStmt, ihs, ihe]
      | whileStmt c b => simp [visitStmt, ihs, ihe]
      | ret rloc oe =>
        cases hc : s.currentConstructor with
        | none =>
          rw [visitStmt_ret_none_eq p fuel s rloc oe hc]
          cases oe <;> simp [ihe]
        | some cc =>
          rw [visitStmt_ret_some_eq p fuel s rloc oe cc hc]
          rw [(checkAll_fields p rloc _).2.2.2.2.2.2]
          cases oe <;> simp [ihe]
      | block sts => simp [visitStmt, ihss s sts]
      | exprStmt e => simp [visitStmt, ihe s e]
    · intro s sts
      cases sts with
      | nil => rfl
      | cons st sts => simp [visitStmts, ihss _ sts, ihs s st]
    · intro s c
      cases c with
      | func f =>
        by_cases himp : f.implemented = true <;> simp [callableInner, himp, ihs, ihes]
      | modifierDef m => simp [callableInner, ihs]
    · intro s c cid ve
      simp [analyseCallable, ihci]

theorem visitBaseArgs_assert (p : Program) (fuel : Nat) :
    ∀ (bs : List (Option (List Expr))) (s : VState),
      (visitBaseArgs p fuel s bs).assertFailed = s.assertFailed := by
  intro bs
  induction bs with
  | nil => intro s; rfl
  | cons ob rest ih =>
    intro s
    cases ob with
    | none => simp [visitBaseArgs, ih]
    | some args => simp [visitBaseArgs, ih, (walk_preserves_assert p fuel).2.1]

theorem sweepCallables_assert (p : Program) (fuel : Nat) :
    ∀ (ids : List Nat) (s : VState),
      (sweepCallables p fuel s ids).assertFailed = s.assertFailed := by
  intro ids
  induction ids with
  | nil => intro s; rfl
  | cons fid rest ih =>
    intro s
    by_cases hm : fid ∈ s.visitedCallables
    · simp [sweepCallables, hm, ih]
    · cases hl : p.callables.lookup fid <;>
        simp [sweepCallables, hm, hl, ih, (walk_preserves_assert p fuel).2.2.2.2.2]

theorem contractPhase_assert (p : Program) (fuel : Nat) (s : VState) (k : Contract) :
    (contractPhase p fuel s k).assertFailed = s.assertFailed := by
  unfold contractPhase
  cases hco : constructorOf p k <;>
    simp [sweepCallables_assert, visitBaseArgs_assert,
      (walk_preserves_assert p fuel).2.2.2.2.2]

theorem contractLoop_assert (p : Program) (fuel : Nat) :
    ∀ (kids : List Nat) (s : VState),
      (contractLoop p fuel s kids).assertFailed = s.assertFailed := by
  intro kids
  induction kids with
  | nil => intro s; rfl
  | cons kid rest ih =>
    intro s
    cases hk : p.contracts.lookup kid <;>
      simp [contractLoop, hk, ih, contractPhase_assert]

/-- New members of the initialized set along a safe walk never carry
their own initializer. -/
def InitGrow (p : Program) (s t : VState) : Prop :=
  ∀ vid, vid ∈ t.initializedStateVariables →
    vid ∈ s.initializedStateVariables ∨ varHasInit p vid = false

theorem InitGrow.base (p : Program) (s : VState) : InitGrow p s s :=
  fun _ h => Or.inl h

theorem InitGrow.of_eq {p : Program} {s t : VState}
    (h : t.initializedStateVariables = s.initializedStateVariables) : InitGrow p s t :=
  fun vid hm => Or.inl (h ▸ hm)

theorem InitGrow.comp {p : Program} {s t u : VState} (h1 : InitGrow p s t)
    (h2 : InitGrow p t u) : InitGrow p s u := by
  intro vid hm
  rcases h2 vid hm with hm2 | hno
  · exact h1 vid hm2
  · exact Or.inr hno

theorem InitGrow.update_vis (p : Program) (s : VState) (l2 : List Nat) :
    InitGrow p s { s with visitedCallables := l2 } := of_eq (Eq.refl _)

theorem InitGrow.update_errors (p : Program) (s : VState) (e2 : List Diag) :
    InitGrow p s { s with errors := e2 } := of_eq (Eq.refl _)

theorem InitGrow.inBranchStep (p : Program) (s : VState) (b : Bool) :
    InitGrow p s { s with inBranch := b } := of_eq (Eq.refl _)

theorem InitGrow.inLoopStep (p : Program) (s : VState) (b : Bool) :
    InitGrow p s { s with inLoop := b } := of_eq (Eq.refl _)

theorem InitGrow.ccStep (p : Program) (s : VState) (c2 : Option (Nat × Nat)) :
    InitGrow p s { s with currentConstructor := c2 } := of_eq (Eq.refl _)

theorem InitGrow.enter (p : Program) (s : VState) (w2 ew2 : List Nat)
    (c2 : Option (Nat × Nat)) :
    InitGrow p s { s with walks := w2, edgeWalks := ew2, currentConstructor := c2 } :=
  of_eq (Eq.refl _)

theorem InitGrow.checkAllStep (p : Program) (loc : Nat) (s : VState) :
    InitGrow p s (checkAllVariablesInitialized p loc s) := of_eq (Eq.refl _)

/-- Along a walk of safe expressions, every variable newly recorded as
initialized has no initializer of its own. -/
theorem initgrow_walk (p : Program) (hp : programSafe p = true) : ∀ fuel : Nat,
    (∀ s e, exprSafe p e = true → InitGrow p s (visitExpr p fuel s e)) ∧
    (∀ s es, exprsSafe p es = true → InitGrow p s (visitExprs p fuel s es)) ∧
    (∀ s st, stmtSafe p st = true → InitGrow p s (visitStmt p fuel s st)) ∧
    (∀ s sts, stmtsSafe p sts = true → InitGrow p s (visitStmts p fuel s sts)) ∧
    (∀ s c, callableSafe p c = true → InitGrow p s (callableInner p fuel s c)) ∧
    (∀ s c cid ve, callableSafe p c = true →
      InitGrow p s (analyseCallable p fuel s c cid ve)) := by
  intro fuel
  induction fuel with
  | zero =>
    refine ⟨?_, ?_, ?_, ?_, ?_, ?_⟩ <;> intros <;> exact InitGrow.base p _
  | succ fuel ih =>
    obtain ⟨ihe, ihes, ihs, ihss, ihci, ihac⟩ := ih
    have hE : ∀ s e, exprSafe p e = true → InitGrow p s (visitExpr p (fuel + 1) s e) := by
      intro s e hsafe
      cases e with
      | ident loc ref lval ord =>
        cases ref with
        | callable cid =>
          by_cases hm : findFinalOverride p cid ∈ s.visitedCallables
          · simp only [visitExpr, hm, if_true]
            exact InitGrow.base p s
          · cases hl : p.callables.lookup (findFinalOverride p cid) with
            | none =>
              simp only [visitExpr, hm, if_false, hl]
              exact InitGrow.update_vis p s _
            | some c =>
              simp only [visitExpr, hm, if_false, hl]
              exact InitGrow.comp (InitGrow.update_vis p s _)
                (ihac _ c _ true (programSafe_callable hp hl))
        | var vid =>
          cases hl : p.vars.lookup vid with
          | none => simp only [visitExpr, hl]; exact InitGrow.base p s
          | some vd =>
            simp only [visitExpr, hl]
            by_cases h1 : (!(vd.isStateVariable && vd.immutable)) = true
            · simp only [h1, if_true]; exact InitGrow.base p s
            · by_cases h2 : (lval && ord) = true
              · simp only [h1, h2, if_false, if_true]
                intro v hv
                by_cases hin : vid ∈ s.initializedStateVariables
                · simp only [hin, if_true] at hv
                  exact Or.inl hv
                · simp only [hin, if_false] at hv
                  rcases List.mem_cons.mp hv with hveq | hvm
                  · subst hveq
                    right
                    have htr : varTriggers p v = true := by
                      simp only [varTriggers, hl]
                      simpa using h1
                    simp only [exprSafe, Bool.not_eq_true'] at hsafe
                    simp only [h2, htr, Bool.true_and] at hsafe
                    simpa using hsafe
                  · exact Or.inl hvm
              · by_cases h3 : s.inConstructionContext
                · simp only [h1, h2, h3, if_false, if_true]
                  exact InitGrow.update_errors p s
                    (s.errors ++ [⟨DiagKind.readDuringConstruction, loc, none⟩])
                · simp only [h1, h2, h3, if_false]
                  exact InitGrow.base p s
        | otherDecl => simp only [visitExpr]; exact InitGrow.base p s
      | member e1 ft =>
        have hs1 : exprSafe p e1 = true := by
          simpa [exprSafe] using hsafe
        have h1 : InitGrow p s (visitExpr p fuel s e1) := ihe s e1 hs1
        cases ft with
        | none => simp only [visitExpr]; exact h1
        | some f =>
          by_cases hk : (f.kind == FTKind.internalKind || f.kind == FTKind.declarationKind) = true
          · cases hd : f.decl with
            | none => simp only [visitExpr, hk, hd, if_true]; exact h1
            | some did =>
              by_cases hm : did ∈ (visitExpr p fuel s e1).visitedCallables
              · simp only [visitExpr, hk, hd, hm, if_true]
                exact h1
              · cases hl : p.callables.lookup did with
                | none =>
                  simp only [visitExpr, hk, hd, hm, hl, if_true, if_false]
                  exact h1.comp (InitGrow.update_vis p _ _)
                | some c =>
                  simp only [visitExpr, hk, hd, hm, hl, if_true, if_false]
                  exact h1.comp (InitGrow.comp (InitGrow.update_vis p _ _)
                    (ihac _ c _ true (programSafe_callable hp hl)))
          · simp only [visitExpr, hk, if_false, Bool.false_eq_true]
            exact h1
      | otherExpr es =>
        simp only [visitExpr]
        exact ihes s es (by simpa [exprSafe] using hsafe)
    have hS : ∀ s st, stmtSafe p st = true → InitGrow p s (visitStmt p (fuel + 1) s st) := by
      intro s st hsafe
      cases st with
      | ifStmt c t fs =>
        cases fs with
        | none =>
          simp only [stmtSafe, Bool.and_eq_true] at hsafe
          simp only [visitStmt]
          exact ((ihe s c hsafe.1).comp (InitGrow.inBranchStep p _ true)).comp
            ((ihs _ t hsafe.2).comp (InitGrow.inBranchStep p _ s.inBranch))
        | some f =>
          simp only [stmtSafe, Bool.and_eq_true] at hsafe
          simp only [visitStmt]
          exact (((ihe s c hsafe.1).comp (InitGrow.inBranchStep p _ true)).comp
            ((ihs _ t hsafe.2.1).comp (ihs _ f hsafe.2.2))).comp
            (InitGrow.inBranchStep p _ s.inBranch)
      | whileStmt c b =>
        simp only [stmtSafe, Bool.and_eq_true] at hsafe
        simp only [visitStmt]
        exact (((InitGrow.inLoopStep p s true).comp (ihe _ c hsafe.1)).comp
          (ihs _ b hsafe.2)).comp (InitGrow.inLoopStep p _ s.inLoop)
      | ret rloc oe =>
        cases hc : s.currentConstructor with
        | none =>
          rw [visitStmt_ret_none_eq p fuel s rloc oe hc]
          cases oe with
          | none => exact InitGrow.base p s
          | some e => exact ihe s e (by simpa [stmtSafe] using hsafe)
        | some cc =>
          rw [visitStmt_ret_some_eq p fuel s rloc oe cc hc]
          cases oe with
          | none => exact InitGrow.checkAllStep p rloc s
          | some e =>
            exact (ihe s e (by simpa [stmtSafe] using hsafe)).comp
              (InitGrow.checkAllStep p rloc _)
      | block sts =>
        simp only [visitStmt]
        exact ihss s sts (by simpa [stmtSafe] using hsafe)
      | exprStmt e =>
        simp only [visitStmt]
        exact ihe s e (by simpa [stmtSafe] using hsafe)
    have hCI : ∀ s c, callableSafe p c = true →
        InitGrow p s (callableInner p (fuel + 1) s c) := by
      intro s c hsafe
      cases c with
      | func f =>
        simp only [callableSafe, Bool.and_eq_true] at hsafe
        by_cases himp : f.implemented = true
        · simp only [callableInner, himp, if_true]
          exact (ihes s f.modifiers hsafe.1).comp (ihs _ f.body hsafe.2)
        · simp only [callableInner, himp, if_false, Bool.false_eq_true]
          exact ihes s f.modifiers hsafe.1
      | modifierDef m =>
        simp only [callableInner]
        exact ihs s m.body (by simpa [callableSafe] using hsafe)
    refine ⟨hE, ?_, hS, ?_, hCI, ?_⟩
    · intro s es hsafe
      cases es with
      | nil => exact InitGrow.base p s
      | cons e es =>
        simp only [exprsSafe, Bool.and_eq_true] at hsafe
        simp only [visitExprs]
        exact (ihe s e hsafe.1).comp (ihes _ es hsafe.2)
    · intro s sts hsafe
      cases sts with
      | nil => exact InitGrow.base p s
      | cons st sts =>
        simp only [stmtsSafe, Bool.and_eq_true] at hsafe
        simp only [visitStmts]
        exact (ihs s st hsafe.1).comp (ihss _ sts hsafe.2)
    · intro s c cid ve hsafe
      cases ve with
      | true =>
        rw [analyseCallable_true_eq]
        exact ((InitGrow.enter p s _ _ _).comp (ihci _ c hsafe)).comp
          (InitGrow.ccStep p _ s.currentConstructor)
      | false =>
        rw [analyseCallable_false_eq]
        exact (((InitGrow.enter p s (s.walks ++ [cid]) s.edgeWalks _).comp
          (InitGrow.of_eq (Eq.refl _))).comp (ihci _ c hsafe)).comp
          (InitGrow.ccStep p _ s.currentConstructor)

/-- Under the safety condition, the driver's initializer loop never
fails its recording assertion. -/
theorem initStateVars_ok (p : Program) (fuel : Nat) (hp : programSafe p = true) :
    ∀ (l : List Nat) (s : VState), l.Nodup →
      (∀ vid ∈ l, varHasInit p vid = true → vid ∉ s.initializedStateVariables) →
      s.assertFailed = false →
      (initStateVars p fuel s l).assertFailed = false := by
  intro l
  induction l with
  | nil => intro s _ _ hs; exact hs
  | cons vid rest ih =>
    intro s hnd hpre hs
    have hndr := (List.nodup_cons.mp hnd).2
    have hvnotin := (List.nodup_cons.mp hnd).1
    cases hl : p.vars.lookup vid with
    | none =>
      simp only [initStateVars, hl]
      exact ih s hndr (fun v hv => hpre v (List.mem_cons_of_mem _ hv)) hs
    | some vd =>
      cases hv : vd.value with
      | none =>
        simp only [initStateVars, hl, hv]
        exact ih s hndr (fun v hv2 => hpre v (List.mem_cons_of_mem _ hv2)) hs
      | some e =>
        have hsafe := programSafe_var hp hl hv
        have hgrow := (initgrow_walk p hp fuel).1 s e hsafe
        have hassert1 : (visitExpr p fuel s e).assertFailed = false :=
          ((walk_preserves_assert p fuel).1 s e).trans hs
        have hhas : varHasInit p vid = true := by simp [varHasInit, hl, hv]
        have hnotin : vid ∉ (visitExpr p fuel s e).initializedStateVariables := by
          intro hmem
          rcases hgrow vid hmem with h | h
          · exact hpre vid (List.mem_cons_self _ _) hhas h
          · simp [hhas] at h
        simp only [initStateVars, hl, hv, hnotin, if_false]
        refine ih _ hndr ?_ (by simpa using hassert1)
        intro v hvrest hvinit hmem
        simp only [List.mem_cons] at hmem
        rcases hmem with hveq | hmem2
        · exact hvnotin (hveq ▸ hvrest)
        · rcases hgrow v hmem2 with h | h
          · exact hpre v (List.mem_cons_of_mem _ hvrest) hvinit h
          · simp [hvinit] at h

/-! ### Claim C3 (corrected) -/

/-- C3 (amended): provided no expression reachable by the walker
performs a simple assignment to a state variable that has its own
initializer, and the state-variable list has no duplicates, `analyze`
runs to completion with diagnostics only: the recording assertion never
fails and the run ends with the final completeness check. -/
theorem C3_no_hard_failure (p : Program) (fuel : Nat)
    (hp : programSafe p = true) (hnd : p.currentContract.stateVariables.Nodup) :
    (analyze p fuel).assertFailed = false ∧
    ∃ s2, analyze p fuel = checkAllVariablesInitialized p p.currentContract.loc s2 := by
  have hinit : (initStateVars p fuel { inConstructionContext := true }
      p.currentContract.stateVariables).assertFailed = false := by
    refine initStateVars_ok p fuel hp _ _ hnd ?_ rfl
    intro vid _ _ hmem
    simp at hmem
  constructor
  · simp only [analyze, hinit, if_false, Bool.false_eq_true]
    rw [(checkAll_fields p p.currentContract.loc _).2.2.2.2.2.2]
    rw [contractLoop_assert]
    exact hinit
  · exact ⟨contractLoop p fuel
      (initStateVars p fuel { inConstructionContext := true }
        p.currentContract.stateVariables)
      p.currentContract.linearizedBaseContracts.reverse,
      by simp [analyze, hinit]⟩

/-- Witness for the amended C3 at a concrete safe program. -/
theorem C3_witness :
    programSafe pW = true ∧ pW.currentContract.stateVariables.Nodup ∧
    ((analyze pW 5).assertFailed = false ∧
      ∃ s2, analyze pW 5 = checkAllVariablesInitialized pW 0 s2) :=
  ⟨by decide, by decide, C3_no_hard_failure pW 5 (by decide) (by decide)⟩

/-- The assigning initializer of the C3 counterexample: variable 2's
initializer performs a simple assignment to variable 1. -/
def bVarW : VarDecl :=
  { contractId := 10, isStateVariable := true, immutable := true,
    value := some (Expr.ident 70 (RefDecl.var 1) true true), loc := 2 }

/-- Variable 1 of the C3 counterexample: immutable with its own
initializer, listed after variable 2. -/
def aVarW : VarDecl :=
  { contractId := 10, isStateVariable := true, immutable := true,
    value := some (Expr.otherExpr []), loc := 1 }

/-- The contract of the C3 counterexample. -/
def contractC3W : Contract :=
  { loc := 0, linearizedBaseContracts := [10], baseContractArgs := [],
    definedFunctions := [], functionModifiers := [], stateVariables := [2, 1] }

/-- The C3 counterexample program. -/
def pC3 : Program :=
  { callables := [], vars := [(2, bVarW), (1, aVarW)],
    contracts := [(10, contractC3W)], currentContract := contractC3W }

/-- Counterexample to C3 as stated: walking variable 2's initializer
records variable 1 as initialized; when the driver then records
variable 1 after walking its own initializer the assertion fails, so
`analyze` does not run to completion with diagnostics only. -/
theorem C3_counterexample : (analyze pC3 5).assertFailed = true := by decide

end ImmutableValidator
